import Mathlib

/-!
# Verification of the Senegal voice normalizer
  (`src/transformers/models/whisper/orange_voice_normalizer.py`)

This development shallowly embeds the `SenegalVoiceNormalizer` class and
settles the specification claims against it.

Modelling conventions:

* A piece of text is modelled by its list of whitespace-separated tokens
  (the result of Python `str.split()`); tokens are nonempty and contain no
  whitespace.  The pipeline's final `re.sub(r'\s+', ' ', text).strip()`
  makes the token-list view agree with the raw-string view on such inputs,
  and every stage boundary in the Python code joins with single spaces and
  re-splits.  Where a replacement string containing spaces is spliced into
  the text, the embedding splices its token list.
* Python strings are Lean `String`s.  `str.lower()` is modelled on the
  ASCII range (all dictionary keys and claim inputs are already lowercase
  apart from ASCII like `F`, `Go`).
* Python `str.isdigit()` is true for every character with Unicode
  Numeric_Type `Digit` or `Decimal`.  Besides the ASCII decimals the model
  includes the Latin-1 superscript digits `¹ ² ³` (Numeric_Type `Digit`),
  which `int()` rejects, since `int()` accepts only decimal (Nd) digits.
  This fragment is enough to exhibit the one reachable divergence between
  the `isdigit` guards and the `int()` conversions they protect.
* Operations that can raise in Python (`int()`, list indexing) return
  `Option`; `none` models the raised exception.  `list.remove` /
  `list.index` are used by the source only under an explicit membership
  guard (`while "ak" in parts`), so they are modelled by `List.erase` and
  an index function below that guard.
* `while` loops that are not structurally recursive are embedded with a
  fuel parameter that starts at an upper bound (the list length) proved
  sufficient; fuel exhaustion cannot be reached from the entry points.
-/

namespace SenegalNormalizer

/-- The ASCII uppercase/lowercase pairs. -/
def asciiLower : List (Char × Char) :=
  [('A', 'a'), ('B', 'b'), ('C', 'c'), ('D', 'd'), ('E', 'e'), ('F', 'f'),
   ('G', 'g'), ('H', 'h'), ('I', 'i'), ('J', 'j'), ('K', 'k'), ('L', 'l'),
   ('M', 'm'), ('N', 'n'), ('O', 'o'), ('P', 'p'), ('Q', 'q'), ('R', 'r'),
   ('S', 's'), ('T', 't'), ('U', 'u'), ('V', 'v'), ('W', 'w'), ('X', 'x'),
   ('Y', 'y'), ('Z', 'z')]

/-- ASCII lowercasing of one character (Python's `str.lower`
additionally lowercases non-ASCII letters; every dictionary key is
already lowercase, so the ASCII fragment suffices). -/
def pyLowerChar (c : Char) : Char := (asciiLower.lookup c).getD c

/-- Model of Python `str.lower()`. -/
def pyLower (s : String) : String := String.mk (s.data.map pyLowerChar)

/-- Characters accepted by Python `str.isdigit`: decimal digits plus (in
this model fragment) the Latin-1 superscript digits, which have Unicode
Numeric_Type `Digit` but are not decimal digits. -/
def pyDigitChar (c : Char) : Bool :=
  c.isDigit || c == '¹' || c == '²' || c == '³'

/-- Model of Python `str.isdigit()`. -/
def pyIsDigit (s : String) : Bool :=
  !s.data.isEmpty && s.data.all pyDigitChar

/-- A nonempty string of ASCII decimal digits: exactly the strings
accepted by Python `int()` (for the character fragment modelled here). -/
def isDecimalStr (s : String) : Bool :=
  !s.data.isEmpty && s.data.all Char.isDigit

/-- Numeric value of a decimal digit string. -/
def digitsToNat (s : String) : Nat :=
  s.data.foldl (fun a c => 10 * a + (c.toNat - 48)) 0

/-- Model of Python `int(s)`: succeeds exactly on decimal digit strings
(`none` models the `ValueError` raised e.g. on the superscript digits
that `str.isdigit` accepts). -/
def pyInt (s : String) : Option Nat :=
  if isDecimalStr s then some (digitsToNat s) else none

/-- The decimal digit character for `n < 10`. -/
def digitChar (n : Nat) : Char := Char.ofNat (48 + n)

/-- Decimal digits of `n`, most significant first; the fuel argument is
structural and `n + 1` fuel always suffices. -/
def natToStrAux : Nat → Nat → List Char
  | 0, _ => []
  | fuel + 1, n =>
    if n < 10 then [digitChar n]
    else natToStrAux fuel (n / 10) ++ [digitChar (n % 10)]

/-- Model of Python `str(n)` for a nonnegative integer. -/
def natToStr (n : Nat) : String := String.mk (natToStrAux (n + 1) n)

/-- Model of Python `str.split()` (split on whitespace runs, dropping
empty fragments); only the space character occurs in the strings built by
the normalizer. -/
def pySplitChars : List Char → List Char → List String
  | [], acc => if acc.isEmpty then [] else [String.mk acc.reverse]
  | c :: cs, acc =>
    if c == ' ' then
      if acc.isEmpty then pySplitChars cs []
      else String.mk acc.reverse :: pySplitChars cs []
    else pySplitChars cs (c :: acc)

/-- Token list of a string (Python `str.split()`). -/
def pySplit (s : String) : List String := pySplitChars s.data []

/-- Model of Python `' '.join(tokens)`. -/
def joinSpace : List String → String
  | [] => ""
  | [t] => t
  | t :: ts => t ++ " " ++ joinSpace ts

/-- Model of Python `sep in word` for a single character separator. -/
def hasHyphen (s : String) : Bool := s.data.contains '-'

/-- Model of Python `word.split('-')` (keeps empty fragments). -/
def splitOnChar (sep : Char) : List Char → List Char → List String
  | [], acc => [String.mk acc.reverse]
  | c :: cs, acc =>
    if c == sep then String.mk acc.reverse :: splitOnChar sep cs []
    else splitOnChar sep cs (c :: acc)

/-- Hyphen-split of a word, as `word.split('-')`. -/
def splitHyphen (w : String) : List String := splitOnChar '-' w.data []

/-- Index of the first occurrence of `a`, as Python `list.index`
(meaningful only under the membership guard the source always checks). -/
def idxOf (a : String) : List String → Nat
  | [] => 0
  | b :: l => if b = a then 0 else idxOf a l + 1

/-! ## The lexicon (`__init__`) -/

/-- `self.wolof_basic`: Wolof units 1–5 with their alternative forms. -/
def wolof_basic : List (String × Nat) :=
  [("benn", 1), ("ñaar", 2), ("ñett", 3), ("ñent", 4), ("juróom", 5),
   ("ñaari", 2), ("ñetti", 3), ("ñenti", 4), ("juróomi", 5), ("benni", 1)]

/-- `self.wolof_ten`. -/
def wolof_ten : List (String × Nat) := [("fukk", 10)]

/-- `self.wolof_hundred`. -/
def wolof_hundred : List (String × Nat) := [("téeméer", 100)]

/-- `self.wolof_thousand`. -/
def wolof_thousand : List (String × Nat) := [("junni", 1000)]

/-- `self.wolof_special`. -/
def wolof_special : List (String × Nat) := [("fanweer", 30)]

/-- `self.french_ones`: French 0–19 (including hyphenated 17–19). -/
def french_ones : List (String × Nat) :=
  [("zéro", 0), ("zero", 0), ("un", 1), ("une", 1), ("deux", 2), ("trois", 3),
   ("quatre", 4), ("cinq", 5), ("six", 6), ("sept", 7), ("huit", 8), ("neuf", 9),
   ("dix", 10), ("onze", 11), ("douze", 12), ("treize", 13), ("quatorze", 14),
   ("quinze", 15), ("seize", 16), ("dix-sept", 17), ("dix-huit", 18), ("dix-neuf", 19)]

/-- `self.french_tens`. -/
def french_tens : List (String × Nat) :=
  [("vingt", 20), ("trente", 30), ("quarante", 40), ("cinquante", 50),
   ("soixante", 60), ("soixante-dix", 70), ("quatre-vingts", 80),
   ("quatre-vingt", 80), ("quatre-vingt-dix", 90)]

/-- `self.french_multipliers`. -/
def french_multipliers : List (String × Nat) :=
  [("cent", 100), ("cents", 100), ("mille", 1000),
   ("million", 1000000), ("millions", 1000000),
   ("milliard", 1000000000), ("milliards", 1000000000)]

/-- `self.connectors`. -/
def connectors : List String := ["ak", "et", "you", "manqué"]

/-- `self.service_words` (a Python `set`; the fixed order below is used
when the four independent removal passes are applied — they interact only
on inputs that chain several service words before a marker). -/
def service_words : List String := ["tapez", "composer", "appuyez", "sur"]

/-- The word forms of `self.code_markers` used by `normalize_codes`'s
hash pattern. -/
def hashMarkers : List String := ["dièse", "diese", "hash"]

/-- The word forms of `self.code_markers` used by `normalize_codes`'s
star pattern. -/
def starMarkers : List String := ["étoile", "star"]

/-- The data-unit alternation `(go|mo|giga|mega|gigaoctets?|megaoctets?)`
of `normalize_data` (the optional `s` gives eight forms). -/
def dataUnits : List String :=
  ["go", "mo", "giga", "mega", "gigaoctets", "gigaoctet", "megaoctets", "megaoctet"]

/-! ## `convert_to_number`: the token scanner -/

/-- Dictionary value access `d[w]`, used only under a membership guard
(the `getD` default is unreachable there). -/
def dictVal (d : List (String × Nat)) (w : String) : Nat :=
  (d.lookup w).getD 0

/-- The hyphen branch of `convert_to_number` (lines 119–152): returns the
digit token it appends, or `none` when control falls through to the rest
of the loop body with the same word. -/
def hyphenStep (w : String) : Option String :=
  match french_tens.lookup w with
  | some v => some (natToStr v)
  | none =>
    match french_ones.lookup w with
    | some v => some (natToStr v)
    | none =>
      let parts := splitHyphen w
      if parts.length == 3 && parts.headD "" == "quatre" && (parts.get? 1).getD "" == "vingt" then
        -- quatre-vingt-X: 80 plus the unit when recognized, bare 80 otherwise
        match french_ones.lookup ((parts.get? 2).getD "") with
        | some u => some (natToStr (80 + u))
        | none => some (natToStr 80)
      else if parts.length == 2 then
        -- generic two-part sum over units and tens
        let total := parts.foldl
          (fun acc p =>
            match french_ones.lookup p with
            | some v => acc + v
            | none =>
              match french_tens.lookup p with
              | some v => acc + v
              | none => acc) 0
        if 0 < total then some (natToStr total) else none
      else none

/-- The single-word conversion chain of `convert_to_number`
(lines 225–246).  The `dërëm` branch, the connector branch and the final
default all append the word itself, so they share the last line. -/
def singleWord (w : String) : String :=
  match wolof_basic.lookup w with
  | some v => natToStr v
  | none =>
    match wolof_ten.lookup w with
    | some v => natToStr v
    | none =>
      match wolof_hundred.lookup w with
      | some v => natToStr v
      | none =>
        match wolof_thousand.lookup w with
        | some v => natToStr v
        | none =>
          match wolof_special.lookup w with
          | some v => natToStr v
          | none =>
            match french_ones.lookup w with
            | some v => natToStr v
            | none =>
              match french_tens.lookup w with
              | some v => natToStr v
              | none =>
                match french_multipliers.lookup w with
                | some v => natToStr v
                | none => w

/-- The left-to-right scan of `convert_to_number` (lines 115–248).  `acc`
is the growing `result` list.  Notes kept from the source:

* the `elif words[i] == "juróom"` sub-branches of the `X fukk` and
  `X téeméer` patterns (lines 180–189 and 199–208) are unreachable,
  because `"juróom"` is itself a `wolof_basic` key and the `if` branch
  above each of them has already fired; they are omitted;
* the guard `i > 0 and result and result[-1] == "20"` of the `X junni`
  pattern holds exactly when `result` is nonempty with last entry `"20"`
  (`result` nonempty already forces `i > 0`). -/
def convertScanF : Nat → List String → List String → List String
  | 0, acc, _ => acc
  | _ + 1, acc, [] => acc
  | fuel + 1, acc, [w] =>
      -- final word: no lookahead is possible, so only the hyphen, digit
      -- and single-word steps of the loop body can fire
      match (if hasHyphen w then hyphenStep w else none) with
      | some tok => convertScanF fuel (acc ++ [tok]) []
      | none =>
        if pyIsDigit w then convertScanF fuel (acc ++ [w]) []
        else convertScanF fuel (acc ++ [singleWord w]) []
  | fuel + 1, acc, w :: x :: rest2 =>
      match (if hasHyphen w then hyphenStep w else none) with
      | some tok => convertScanF fuel (acc ++ [tok]) (x :: rest2)
      | none =>
        if pyIsDigit w then convertScanF fuel (acc ++ [w]) (x :: rest2)
        else
          if w == "juróom" && (wolof_basic.lookup x).isSome then
            convertScanF fuel (acc ++ [natToStr (5 + dictVal wolof_basic x)]) rest2
          else if x == "fukk" && (wolof_basic.lookup w).isSome then
            convertScanF fuel (acc ++ [natToStr (dictVal wolof_basic w * 10)]) rest2
          else if x == "téeméer" && (wolof_basic.lookup w).isSome then
            convertScanF fuel (acc ++ [natToStr (dictVal wolof_basic w * 100)]) rest2
          else if x == "junni" && (wolof_basic.lookup w).isSome
              && !(acc.getLast? == some "20") then
            convertScanF fuel (acc ++ [natToStr (dictVal wolof_basic w * 1000)]) rest2
          else
            convertScanF fuel (acc ++ [singleWord w]) (x :: rest2)

/-- The scanner with its sufficient fuel: each iteration consumes at
least one word, so `ts.length` steps always finish the pass. -/
def convertScan (acc ts : List String) : List String :=
  convertScanF ts.length acc ts

/-! ## `calculate_from_parts`: the combiner -/

/-- One-step-per-fuel-unit embedding of the `while "ak" in parts` loop of
`calculate_from_parts` (lines 256–267).  Each iteration removes one `"ak"`
and shrinks the list, so fuel `parts.length` suffices.  The `get?` calls
model the guarded `parts[idx-1]` / `parts[idx+1]` indexing; `List.erase`
models `parts.remove("ak")`, total here because the loop guard gives
membership. -/
def akLoopF : Nat → List String → Option (List String)
  | 0, parts => some parts
  | fuel + 1, parts =>
    if parts.contains "ak" then
      let idx := idxOf "ak" parts
      if 0 < idx && idx < parts.length - 1 then
        match parts.get? (idx - 1), parts.get? (idx + 1) with
        | some left, some right =>
          if pyIsDigit left && pyIsDigit right then
            match pyInt left, pyInt right with
            | some l, some r =>
              akLoopF fuel (parts.take (idx - 1) ++ natToStr (l + r) :: parts.drop (idx + 2))
            | _, _ => none
          else akLoopF fuel (parts.erase "ak")
        | _, _ => none
      else akLoopF fuel (parts.erase "ak")
    else some parts

/-- The `"ak"` addition loop with its sufficient fuel. -/
def akLoop (parts : List String) : Option (List String) :=
  akLoopF parts.length parts

/-- Multiply the last element by 5 (`numbers[-1] = numbers[-1] * 5`);
used only under the `and numbers` guard, so the empty case is
unreachable. -/
def mulLast5 (l : List Nat) : List Nat :=
  l.dropLast ++ (l.getLast?.map (· * 5)).toList

/-- The `numbers` / `other_words` collection loop of
`calculate_from_parts` (lines 273–280), including the `dërëm`
multiply-by-five rule.  `pyInt` models the `int(part)` call guarded by
`part.isdigit()`. -/
def collectNums : List String → List Nat → List String → Option (List Nat × List String)
  | [], nums, others => some (nums, others)
  | p :: ps, nums, others =>
    if pyIsDigit p then
      match pyInt p with
      | some n => collectNums ps (nums ++ [n]) others
      | none => none
    else if p == "dërëm" && !nums.isEmpty then
      collectNums ps (mulLast5 nums) others
    else
      collectNums ps nums (others ++ [p])

/-- The magnitude-combination loop of `calculate_from_parts`
(lines 287–304): a number immediately followed by a larger number `≥ 100`
is replaced by their product, scanning left to right. -/
def combineNums : List Nat → List Nat
  | [] => []
  | [x] => [x]
  | x :: y :: rest =>
    if 100 ≤ y && x < y then (x * y) :: combineNums rest
    else x :: combineNums (y :: rest)

/-- `calculate_from_parts` (lines 253–313). -/
def calculate_from_parts (parts : List String) : Option String := do
  let parts2 ← akLoop parts
  let (nums, others) ← collectNums parts2 [] []
  if nums.isEmpty then
    return joinSpace parts2
  else
    let total := (combineNums nums).sum
    if others.isEmpty then return natToStr total
    else return natToStr total ++ " " ++ joinSpace others

/-- `convert_to_number` (lines 111–251) on the token list of its input:
lowercase, scan, combine. -/
def convert_to_number (tokens : List String) : Option String :=
  calculate_from_parts (convertScan [] (tokens.map pyLower))

/-! ## `normalize_codes` -/

/-- Does the token start with one of the code-marker words?  This is the
lookahead `(?=(dièse|diese|hash|étoile|star))` of the service-word
removal (case-insensitive, and a lookahead checks a prefix only). -/
def startsWithCodeMarker (t : String) : Bool :=
  (hashMarkers ++ starMarkers).any (fun m => m.data.isPrefixOf (pyLower t).data)

/-- One service-word removal pass
`re.sub(rf'\b{word}\s+(?=(dièse|diese|hash|étoile|star))', '', text)`:
drop each token equal to the service word whose successor begins with a
marker word; scanning continues at the successor. -/
def stripWord (sw : String) : List String → List String
  | [] => []
  | [x] => [x]
  | x :: y :: rest =>
    if pyLower x == sw && startsWithCodeMarker y then stripWord sw (y :: rest)
    else x :: stripWord sw (y :: rest)

/-- The four service-word removal passes of `normalize_codes`
(lines 91–92), applied in the order the set literal is written. -/
def serviceStrip (ts : List String) : List String :=
  stripWord "sur" (stripWord "appuyez" (stripWord "composer" (stripWord "tapez" ts)))

/-- Split a token list at its first code-marker token:
`some (before, after)` with the marker consumed. -/
def splitFirstMarker (ms : List String) : List String → Option (List String × List String)
  | [] => none
  | z :: zs =>
    if ms.contains (pyLower z) then some ([], zs)
    else (splitFirstMarker ms zs).map (fun p => (z :: p.1, p.2))

/-- One `re.sub` pass of
`r'\b(marker)\s+(.*?)\s+(marker)\b'` → `symbol + convert + symbol`
(lines 95–107), at token granularity.  The lazy `(.*?)` needs at least
one whitespace run on each side, so on single-spaced text the closing
marker is the first marker token at distance ≥ 2 from the opener and the
content is the (nonempty) token run strictly between them; scanning
resumes after the match.  Replacement text is spliced as its token list.
Fuel `ts.length` suffices: every recursion strictly shrinks the list. -/
def codeSubF (ms : List String) (sym : String) : Nat → List String → Option (List String)
  | _, [] => some []
  | 0, w :: ws => some (w :: ws)
  | fuel + 1, w :: ws =>
    if ms.contains (pyLower w) then
      match ws with
      | [] => some [w]
      | y :: ys =>
        match splitFirstMarker ms ys with
        | some (mid, after) => do
          let v ← convert_to_number (y :: mid)
          let tail ← codeSubF ms sym fuel after
          return pySplit (sym ++ v ++ sym) ++ tail
        | none => do
          let tail ← codeSubF ms sym fuel ws
          return w :: tail
    else do
      let tail ← codeSubF ms sym fuel ws
      return w :: tail

/-- `normalize_codes` (lines 88–109): service-word removal, then the
hash pattern, then the star pattern. -/
def normalize_codes (ts : List String) : Option (List String) := do
  let t1 := serviceStrip ts
  let t2 ← codeSubF hashMarkers "#" t1.length t1
  let t3 ← codeSubF starMarkers "*" t2.length t2
  return t3

/-! ## `normalize_phone_numbers` -/

/-- The inner collection loop of `normalize_phone_numbers`
(lines 327–347): gather digit contributions of French numeral tokens
(capped at 12 parts, checked before each token), skipping `cent`, `et`
and `-`; stop at the first other token.  Returns the collected parts and
the remaining words from the stopping position (`j`).  Lookups are
case-sensitive here, as in the source. -/
def phoneCollect : List String → List String → List String × List String
  | [], acc => (acc, [])
  | w :: ws, acc =>
    if 12 ≤ acc.length then (acc, w :: ws)
    else if pyIsDigit w then phoneCollect ws (acc ++ [w])
    else
      match french_ones.lookup w with
      | some v => phoneCollect ws (acc ++ [natToStr v])
      | none =>
        match french_tens.lookup w with
        | some v => phoneCollect ws (acc ++ [natToStr v])
        | none =>
          if w == "cent" then phoneCollect ws acc
          else if w == "et" || w == "-" then phoneCollect ws acc
          else (acc, w :: ws)

/-- The digit filter of lines 352–358: a part contributes if it is a
single character or two characters starting with 7, 8 or 9; the loop
breaks at the first other part. -/
def phoneDigitOK (p : String) : Bool :=
  p.length == 1 || (p.length == 2 && ['7', '8', '9'].contains (p.data.headD ' '))

/-- Python slice `s[a:b]`. -/
def strSlice (s : String) (a b : Nat) : String :=
  String.mk ((s.data.drop a).take (b - a))

/-- The 9-digit grouping `XX XXX XX XX` (line 365), as its token list. -/
def fmt9 (ds : String) : List String :=
  [strSlice ds 0 2, strSlice ds 2 5, strSlice ds 5 7, strSlice ds 7 9]

/-- The 8-digit grouping `XX XXX XXX` (line 367), as its token list. -/
def fmt8 (ds : String) : List String :=
  [strSlice ds 0 2, strSlice ds 2 5, strSlice ds 5 8]

/-- The outer loop of `normalize_phone_numbers` (lines 315–376): a run
of at least 6 collected parts whose filtered digit concatenation has
exactly 9 or 8 digits is replaced by the grouped form and scanning
resumes after the run; otherwise the current word is emitted and the
scan restarts at the next word.  Fuel `ts.length` suffices (a qualifying
run consumes at least 6 words). -/
def phoneScanF : Nat → List String → List String
  | 0, ts => ts
  | _ + 1, [] => []
  | fuel + 1, w :: ws =>
    if 6 ≤ (phoneCollect (w :: ws) []).1.length then
      if (String.join ((phoneCollect (w :: ws) []).1.takeWhile phoneDigitOK)).length == 9 then
        fmt9 (String.join ((phoneCollect (w :: ws) []).1.takeWhile phoneDigitOK))
          ++ phoneScanF fuel (phoneCollect (w :: ws) []).2
      else if (String.join ((phoneCollect (w :: ws) []).1.takeWhile phoneDigitOK)).length == 8 then
        fmt8 (String.join ((phoneCollect (w :: ws) []).1.takeWhile phoneDigitOK))
          ++ phoneScanF fuel (phoneCollect (w :: ws) []).2
      else w :: phoneScanF fuel ws
    else w :: phoneScanF fuel ws

/-- `normalize_phone_numbers` with its sufficient fuel. -/
def normalize_phone_numbers (ts : List String) : List String :=
  phoneScanF ts.length ts

/-! ## `normalize_data` -/

/-- Find the first data-unit token (case-insensitively):
`some (before, unit, after)`. -/
def findUnitAux : List String → Option (List String × String × List String)
  | [] => none
  | z :: zs =>
    if dataUnits.contains (pyLower z) then some ([], z, zs)
    else (findUnitAux zs).map (fun p => (z :: p.1, p.2.1, p.2.2))

/-- Canonicalization of the matched unit word (lines 390–393). -/
def canonUnit (u : String) : String :=
  if ["go", "giga", "gigaoctets", "gigaoctet"].contains u then "Go"
  else if ["mo", "mega", "megaoctets", "megaoctet"].contains u then "Mo"
  else u

/-- The global `re.sub` of `\b(.*?)\s+(go|mo|giga|mega|gigaoctets?|megaoctets?)\b`
(lines 380–397) at token granularity.  The lazy `(.*?)` makes each match
run from the current scan position to the first following unit token; at
the very start of the text the unit needs a preceding token (`\s+`), in
later rounds the separating space supplies it (so the quantity may be
empty there; in that corner Python additionally glues the replacement to
the previous text — only adjacent unit words are affected, which no
specified input contains).  Fuel `ts.length` suffices. -/
def dataFound : Bool → List String → Option (List String × String × List String)
  | false, ts => findUnitAux ts
  | true, [] => none
  | true, t :: rest => (findUnitAux rest).map (fun p => (t :: p.1, p.2.1, p.2.2))

/-- The iterated substitution itself; the quantity-then-unit match of one
round is `dataFound`. -/
def dataLoopF : Nat → Bool → List String → Option (List String)
  | 0, _, ts => some ts
  | fuel + 1, first, ts =>
    match dataFound first ts with
    | none => some ts
    | some (content, u, after) => do
      let qty ← convert_to_number content
      let tail ← dataLoopF fuel false after
      return pySplit (qty ++ canonUnit (pyLower u)) ++ tail

/-- Does the token end in `\d+(Go|Mo)`? -/
def endsDigitsUnit (t : String) : Bool :=
  match t.data.reverse with
  | 'o' :: g :: d :: _ => (g == 'G' || g == 'M') && d.isDigit
  | _ => false

/-- Does the token end in `\d+(Go|Mo)/`? -/
def endsDigitsUnitSlash (t : String) : Bool :=
  match t.data.reverse with
  | '/' :: rest => endsDigitsUnit (String.mk rest.reverse)
  | _ => false

/-- The post-pass `re.sub(r'(\d+)(Go|Mo)\s*/\s*mois', r'\1\2/mois', text)`
(line 400) at token granularity: the whitespace around the slash is
removed, merging the participating tokens (within a single token the
substitution rewrites the text to itself). -/
def slashMois : List String → List String
  | [] => []
  | [a] => [a]
  | [a, b] =>
    if endsDigitsUnit a && "/mois".data.isPrefixOf b.data then [a ++ b]
    else if endsDigitsUnitSlash a && "mois".data.isPrefixOf b.data then [a ++ b]
    else [a, b]
  | a :: b :: c :: rest =>
    if endsDigitsUnit a && b == "/" && "mois".data.isPrefixOf c.data then
      (a ++ "/" ++ c) :: slashMois rest
    else if endsDigitsUnit a && "/mois".data.isPrefixOf b.data then
      (a ++ b) :: slashMois (c :: rest)
    else if endsDigitsUnitSlash a && "mois".data.isPrefixOf b.data then
      (a ++ b) :: slashMois (c :: rest)
    else a :: slashMois (b :: c :: rest)

/-- The post-pass `re.sub(r'(\d+)(Go|Mo)\s+par\s+mois', r'\1\2/mois', text)`
(line 401) at token granularity. -/
def parMois : List String → List String
  | [] => []
  | [a] => [a]
  | [a, b] => [a, b]
  | a :: b :: c :: rest =>
    if endsDigitsUnit a && b == "par" && "mois".data.isPrefixOf c.data then
      (a ++ "/" ++ c) :: parMois rest
    else a :: parMois (b :: c :: rest)

/-- `normalize_data` (lines 378–403). -/
def normalize_data (ts : List String) : Option (List String) := do
  let t1 ← dataLoopF ts.length true ts
  return parMois (slashMois t1)

/-! ## `_format_with_spaces` and the inline currency pass of `__call__` -/

/-- The chunking `[reversed_str[i:i+3] for i in range(0, len, 3)]`. -/
def chunks3 : List Char → List (List Char)
  | [] => []
  | [a] => [[a]]
  | [a, b] => [[a, b]]
  | a :: b :: c :: rest => [a, b, c] :: chunks3 rest

/-- `' '.join` over character chunks. -/
def joinChunks : List (List Char) → List Char
  | [] => []
  | [c] => c
  | c :: cs => c ++ ' ' :: joinChunks cs

/-- `_format_with_spaces` (lines 445–453): reverse, chunk into threes,
join with spaces, reverse back; strings of length at most 3 are
returned unchanged. -/
def formatWithSpaces (s : String) : String :=
  if s.length ≤ 3 then s
  else String.mk (joinChunks (chunks3 s.data.reverse)).reverse

/-- The currency-marker lookahead of `__call__` (lines 481–493): scan at
most five tokens ahead; a bare `francs`/`franc`/`f` yields `F`, else
`fcfa` yields `FCFA`.  (The `francs cfa` disjunct of the `elif` is
unreachable: a token equal to `francs` is already taken by the `if`
branch; it is kept verbatim.)  Returns the marker type and the offset of
the marker inside the scanned list. -/
def searchCurrency : List String → Nat → Option (String × Nat)
  | [], _ => none
  | _, 0 => none
  | w :: ws, n + 1 =>
    if ["francs", "franc", "f"].contains (pyLower w) then some ("F", 0)
    else if pyLower w == "fcfa"
        || (!ws.isEmpty && pyLower w == "francs" && pyLower (ws.headD "") == "cfa") then
      some ("FCFA", if pyLower w == "francs" then 1 else 0)
    else (searchCurrency ws n).map (fun p => (p.1, p.2 + 1))

/-- Is `p` a contiguous sublist of the second argument? -/
def isInfixChars (p : List Char) : List Char → Bool
  | [] => p.isEmpty
  | c :: cs => p.isPrefixOf (c :: cs) || isInfixChars p cs

/-- Does the joined amount contain `dërëm` as a substring?  The word has
no whitespace, so the substring test on the joined text is the substring
test on some token. -/
def amountHasDerem (amount : List String) : Bool :=
  amount.any (fun t => isInfixChars "dërëm".data t.data)

/-- Conversion of the amount phrase (lines 499–513): the special `dërëm`
path multiplies the converted prefix by five when it parses as a number,
otherwise the raw amount text is kept; `pyInt` models `int(base_num)`
guarded by `base_num.isdigit()`. -/
def convertAmount (amount : List String) : Option String :=
  if amountHasDerem amount then
    if amount.getLast?.getD "" == "dërëm" && 1 < amount.length then do
      let base ← convert_to_number amount.dropLast
      if pyIsDigit base then
        match pyInt base with
        | some b => return natToStr (b * 5)
        | none => none
      else return joinSpace amount
    else convert_to_number amount
  else convert_to_number amount

/-- The word-scanning currency pass inlined in `__call__`
(lines 468–531): look ahead up to five tokens for a currency marker,
convert the amount before it, format amounts of at least four digits
with `_format_with_spaces`, emit `<amount> <marker>` and resume after the
marker.  (The final `if currency_type == "FCFA" ...` adjustment at
lines 524–525 re-assigns the same value of `i` and is omitted.)  Fuel
`ts.length` suffices. -/
def currencyScanF : Nat → List String → Option (List String)
  | 0, ts => some ts
  | _ + 1, [] => some []
  | _ + 1, [w] => some [w]
  | fuel + 1, w :: x :: rest2 =>
    match searchCurrency (x :: rest2) 5 with
    | some (ctype, k) => do
      let amount := w :: (x :: rest2).take k
      let normalized ← convertAmount amount
      let emitted :=
        if pyIsDigit normalized && 4 ≤ normalized.length then
          pySplit (formatWithSpaces normalized ++ " " ++ ctype)
        else pySplit (normalized ++ " " ++ ctype)
      let tail ← currencyScanF fuel ((x :: rest2).drop (k + 1))
      return emitted ++ tail
    | none => do
      let tail ← currencyScanF fuel (x :: rest2)
      return w :: tail

/-! ## The pipeline `__call__` -/

/-- `__call__` (lines 455–537): codes, phone numbers, data, the inline
currency pass; the final whitespace cleanup is the token/string
correspondence itself. -/
def normalizeTokens (ts : List String) : Option (List String) := do
  let t1 ← normalize_codes ts
  let t2 := normalize_phone_numbers t1
  let t3 ← normalize_data t2
  currencyScanF t3.length t3

/-- The pipeline as a string transformer on the token list of the input
(the output of `__call__` after its whitespace collapse). -/
def pyNormalize (ts : List String) : Option String :=
  (normalizeTokens ts).map joinSpace

/-! ## Safety predicates (claim C9)

Python's `str.isdigit` accepts the Latin-1 superscript digits while
`int()` rejects them, so the `isdigit`-guards of the source do not cover
`int()`; inputs avoiding those characters are the ones on which
`normalize` can be proved total. -/

/-- The character is none of the superscript digits `¹ ² ³`. -/
def okChar (c : Char) : Bool := !(c == '¹' || c == '²' || c == '³')

/-- Every character of the string is an `okChar`. -/
def okStr (s : String) : Bool := s.data.all okChar

/-- Every token consists of `okChar`s. -/
def okToks (ts : List String) : Bool := ts.all okStr

/-! ## Claim C1 -/

/-- C1: the spec claims `convert_to_number` maps
`"junni ak juróom ñenti téeméer ak ñent fukk ak juróom"` to `"1945"`.
The code instead returns `"1154"`: the scanner consumes `juróom ñenti`
as 9 before seeing `téeméer` (the `juróom X` pattern has priority over
`X téeméer`), leaving parts `1000 ak 9 100 ak 40 ak 5`, and the
connector pass then computes `(1000+9) + (100+40+5) = 1154`. -/
theorem c1_complex_wolof_eval :
    convert_to_number
        ["junni", "ak", "juróom", "ñenti", "téeméer", "ak", "ñent", "fukk", "ak", "juróom"]
      = some "1154"
    ∧ ("1154" : String) ≠ "1945" := by
  constructor
  · decide
  · decide

/-! ## Claim C2 -/

/-- C2 counterexample: the claim says every connector token (`ak`, `et`,
`you`, `manqué`) between two digit strings is replaced by their sum and
that a connector is otherwise dropped.  The combiner only treats `"ak"`
this way: `"dix et cinq"` leaves `et` in `other_words`, so the result is
`"15 et"`, not `"15"` (and `et` is not dropped either). -/
theorem c2_connector_counterexample :
    convert_to_number ["dix", "et", "cinq"] = some "15 et"
    ∧ ("15 et" : String) ≠ "15" := by
  constructor
  · decide
  · decide

/-! ## Claim C3 -/

/-- C3: the `dërëm` rule itself is in the code (`ñaar fukk dërëm` gives
`20 × 5 = 100`), but `"téeméeri dërëm"` does not give `"500"` as the
repository's own test expects: `"téeméeri"` (genitive of `téeméer`) is
in no lexicon table, so no numeral precedes `dërëm` and the whole phrase
is passed through unchanged. -/
theorem c3_derem_eval :
    convert_to_number ["téeméeri", "dërëm"] = some "téeméeri dërëm"
    ∧ convert_to_number ["ñaar", "fukk", "dërëm"] = some "100"
    ∧ ("téeméeri dërëm" : String) ≠ "500" := by
  refine ⟨?_, ?_, ?_⟩ <;> decide

/-! ## Claim C4 -/

/-- C4 counterexample: the pipeline is not idempotent.  It maps
`"vingt mille francs"` to the canonical `"20 000 F"`, but re-normalizing
`"20 000 F"` yields `"20 F"`: the inline currency scan re-parses
`20 000` as an amount phrase and `int("000") = 0` collapses the grouped
digits. -/
theorem c4_idempotence_counterexample :
    pyNormalize ["vingt", "mille", "francs"] = some "20 000 F"
    ∧ pyNormalize ["20", "000", "F"] = some "20 F"
    ∧ ("20 F" : String) ≠ "20 000 F" := by
  refine ⟨?_, ?_, ?_⟩ <;> decide

/-- C4 amended: re-normalizing `"#205#"` and `"5Go"` returns them
unchanged, but re-normalizing the canonical currency output `"20 000 F"`
yields `"20 F"` (itself a fixed point), so the pipeline is not
idempotent. -/
theorem c4_amended_idempotence :
    pyNormalize ["#205#"] = some "#205#"
    ∧ pyNormalize ["5Go"] = some "5Go"
    ∧ pyNormalize ["20", "000", "F"] = some "20 F"
    ∧ pyNormalize ["20", "F"] = some "20 F" := by
  refine ⟨?_, ?_, ?_, ?_⟩ <;> decide

/-! ## Claim C5 -/

/-- C5: the claim (and the repository test) expect
`"cinquante-quatre mille neuf cents francs cfa"` to become
`"54 900 FCFA"`.  The pipeline's word-scanning currency pass checks the
bare markers `francs`/`franc`/`f` *before* `fcfa`, so it emits
`"54 900 F cfa"` instead; `"vingt mille francs"` does become
`"20 000 F"` with the 3-digit grouping.  (The regex-based
`normalize_currency`, which does try `francs cfa` first, is never called
by `__call__`.) -/
theorem c5_currency_eval :
    pyNormalize ["vingt", "mille", "francs"] = some "20 000 F"
    ∧ pyNormalize ["cinquante-quatre", "mille", "neuf", "cents", "francs", "cfa"]
        = some "54 900 F cfa"
    ∧ ("54 900 F cfa" : String) ≠ "54 900 FCFA" := by
  refine ⟨?_, ?_, ?_⟩ <;> decide

/-! ## Claim C7 -/

/-- C7: the code normalizer strips the filler word before the marker,
converts the bracketed content, and rewrites the span as `#<value>#` or
`*<value>*`; a single unmatched marker is left untouched. -/
theorem c7_code_extraction :
    pyNormalize ["tapez", "dièse", "deux", "cent", "cinq", "dièse"] = some "#205#"
    ∧ pyNormalize ["composer", "étoile", "huit", "cent", "quatre-vingt-huit", "étoile"]
        = some "*888*"
    ∧ pyNormalize ["dièse", "deux", "cent", "cinq"] = some "dièse deux cent cinq" := by
  refine ⟨?_, ?_, ?_⟩ <;> decide

/-! ## Claim C6: the `X junni` pattern and its `20` exception -/

theorem lookup_mem {α β : Type} [BEq α] [LawfulBEq α]
    {l : List (α × β)} {u : α} {v : β}
    (h : l.lookup u = some v) : (u, v) ∈ l := by
  induction l with
  | nil => simp [List.lookup] at h
  | cons p t ih =>
    obtain ⟨k, b⟩ := p
    by_cases hk : u = k
    · subst hk
      simp [List.lookup] at h
      simp [h]
    · have hk' : (u == k) = false := by simp [hk]
      rw [List.lookup, hk'] at h
      exact List.mem_cons_of_mem _ (ih h)

/-- C6: in the scanner, a `wolof_basic` unit word immediately followed
by `junni` produces `unit × 1000`, consuming both words — except when
the last value already emitted is `"20"`, in which case the multi-word
pattern is suppressed and the unit word alone is converted (scanning
resumes at `junni`).  Consequently `"ñaar fukk junni"` is read as
`20 · 1000 = 20000` by the magnitude combination, not as
`fukk × 1000`. -/
theorem convertScanF_congr : ∀ (f g : Nat) (acc ts : List String),
    ts.length ≤ f → ts.length ≤ g → convertScanF f acc ts = convertScanF g acc ts := by
  intro f
  induction f with
  | zero =>
    intro g acc ts hf _
    have h0 : ts = [] := List.eq_nil_of_length_eq_zero (Nat.le_zero.mp hf)
    subst h0
    cases g <;> rfl
  | succ f ih =>
    intro g acc ts hf hg
    cases g with
    | zero =>
      have h0 : ts = [] := List.eq_nil_of_length_eq_zero (Nat.le_zero.mp hg)
      subst h0
      rfl
    | succ g' =>
      cases ts with
      | nil => rfl
      | cons w rest =>
        cases rest with
        | nil =>
          rw [convertScanF, convertScanF]
          cases hx : (if hasHyphen w then hyphenStep w else none) with
          | some tok => exact ih _ _ _ (Nat.zero_le _) (Nat.zero_le _)
          | none =>
            simp only []
            by_cases hd : pyIsDigit w = true
            · rw [if_pos hd, if_pos hd]
              exact ih _ _ _ (Nat.zero_le _) (Nat.zero_le _)
            · rw [if_neg hd, if_neg hd]
              exact ih _ _ _ (Nat.zero_le _) (Nat.zero_le _)
        | cons x rest2 =>
          simp only [List.length_cons] at hf hg
          have h2f : rest2.length ≤ f := by omega
          have h2g : rest2.length ≤ g' := by omega
          have h1f : (x :: rest2).length ≤ f := by simp only [List.length_cons]; omega
          have h1g : (x :: rest2).length ≤ g' := by simp only [List.length_cons]; omega
          rw [convertScanF, convertScanF]
          cases hx : (if hasHyphen w then hyphenStep w else none) with
          | some tok => exact ih _ _ _ h1f h1g
          | none =>
            simp only []
            by_cases hd : pyIsDigit w = true
            · rw [if_pos hd, if_pos hd]
              exact ih _ _ _ h1f h1g
            · rw [if_neg hd, if_neg hd]
              by_cases h1 : (w == "juróom" && (wolof_basic.lookup x).isSome) = true
              · rw [if_pos h1, if_pos h1]
                exact ih _ _ _ h2f h2g
              · rw [if_neg h1, if_neg h1]
                by_cases h2 : (x == "fukk" && (wolof_basic.lookup w).isSome) = true
                · rw [if_pos h2, if_pos h2]
                  exact ih _ _ _ h2f h2g
                · rw [if_neg h2, if_neg h2]
                  by_cases h3 : (x == "téeméer" && (wolof_basic.lookup w).isSome) = true
                  · rw [if_pos h3, if_pos h3]
                    exact ih _ _ _ h2f h2g
                  · rw [if_neg h3, if_neg h3]
                    by_cases h4 : (x == "junni" && (wolof_basic.lookup w).isSome
                        && !(acc.getLast? == some "20")) = true
                    · rw [if_pos h4, if_pos h4]
                      exact ih _ _ _ h2f h2g
                    · rw [if_neg h4, if_neg h4]
                      exact ih _ _ _ h1f h1g

theorem c6_unit_junni_exception :
    (∀ (u : String) (v : Nat) (acc rest : List String),
        wolof_basic.lookup u = some v →
        convertScan acc (u :: "junni" :: rest) =
          if acc.getLast? == some "20" then
            convertScan (acc ++ [natToStr v]) ("junni" :: rest)
          else convertScan (acc ++ [natToStr (v * 1000)]) rest)
    ∧ convert_to_number ["ñaar", "fukk", "junni"] = some "20000" := by
  refine ⟨?_, by decide⟩
  intro u v acc rest hu
  have hmem : (u, v) ∈ wolof_basic := lookup_mem hu
  have hkey : ∀ p ∈ wolof_basic, hasHyphen p.1 = false ∧ pyIsDigit p.1 = false := by decide
  have hh : hasHyphen u = false := (hkey _ hmem).1
  have hd : pyIsDigit u = false := (hkey _ hmem).2
  have hdv : dictVal wolof_basic u = v := by rw [dictVal, hu, Option.getD_some]
  have hsw : singleWord u = natToStr v := by rw [singleWord, hu]
  have hjun : (wolof_basic.lookup "junni").isSome = false := rfl
  have hfkk : (("junni" : String) == "fukk") = false := rfl
  have htee : (("junni" : String) == "téeméer") = false := rfl
  have hc5 : (("junni" : String) == "junni" && (wolof_basic.lookup u).isSome
      && !(acc.getLast? == some "20")) = (!(acc.getLast? == some "20")) := by
    rw [hu]
    rfl
  simp only [convertScan, List.length_cons]
  rw [convertScanF]
  cases hx : (if hasHyphen u then hyphenStep u else none) with
  | some tok =>
    rw [hh] at hx
    simp at hx
  | none =>
    simp only []
    rw [if_neg (show ¬(pyIsDigit u = true) by rw [hd]; decide)]
    rw [if_neg (show ¬((u == "juróom" && (wolof_basic.lookup "junni").isSome) = true) by
      rw [hjun, Bool.and_false]; decide)]
    rw [if_neg (show ¬((("junni" : String) == "fukk" && (wolof_basic.lookup u).isSome) = true) by
      rw [hfkk, Bool.false_and]; decide)]
    rw [if_neg
      (show ¬((("junni" : String) == "téeméer" && (wolof_basic.lookup u).isSome) = true) by
        rw [htee, Bool.false_and]; decide)]
    rw [hc5]
    cases hacc : acc.getLast? == some "20" with
    | false =>
      rw [if_pos (show (!false) = true by decide), if_neg (show ¬(false = true) by decide)]
      rw [hdv]
      exact convertScanF_congr _ _ _ _ (Nat.le_succ _) (Nat.le_refl _)
    | true =>
      rw [if_neg (show ¬((!true) = true) by decide), if_pos (show true = true by decide)]
      rw [hsw]

/-- Witness for C6: the suppression at a concrete state — after `"20"`
has been emitted, `benn junni` is scanned as `1` then `1000`. -/
theorem c6_unit_junni_exception_witness :
    wolof_basic.lookup "benn" = some 1
    ∧ convertScan ["20"] ("benn" :: "junni" :: []) =
        (if (["20"] : List String).getLast? == some "20" then
          convertScan (["20"] ++ [natToStr 1]) ("junni" :: [])
        else convertScan (["20"] ++ [natToStr (1 * 1000)]) [])
    ∧ convertScan [] ("benn" :: "junni" :: []) =
        (if ([] : List String).getLast? == some "20" then
          convertScan ([] ++ [natToStr 1]) ("junni" :: [])
        else convertScan ([] ++ [natToStr (1 * 1000)]) []) :=
  ⟨rfl,
   c6_unit_junni_exception.1 "benn" 1 ["20"] [] rfl,
   c6_unit_junni_exception.1 "benn" 1 [] [] rfl⟩

/-! ## Claim C2: the `"ak"` addition loop -/

theorem akLoopF_nil (g : Nat) : akLoopF g [] = some [] := by
  cases g <;> rfl

theorem idxOf_lt_length {a : String} : ∀ {l : List String}, a ∈ l → idxOf a l < l.length := by
  intro l
  induction l with
  | nil => intro h; simp at h
  | cons b t ih =>
    intro h
    by_cases hb : b = a
    · simp [idxOf, hb]
    · have : a ∈ t := by
        rcases List.mem_cons.mp h with h' | h'
        · exact absurd h'.symm hb
        · exact h'
      simp only [idxOf, if_neg hb, List.length_cons]
      exact Nat.succ_lt_succ (ih this)

theorem length_take_drop_splice {parts : List String} {idx : Nat} (s : String)
    (h1 : 0 < idx) (h2 : idx < parts.length - 1) :
    (parts.take (idx - 1) ++ s :: parts.drop (idx + 2)).length = parts.length - 2 := by
  simp only [List.length_append, List.length_take, List.length_cons, List.length_drop]
  omega

theorem akLoopF_congr : ∀ (f g : Nat) (parts : List String),
    parts.length ≤ f → parts.length ≤ g → akLoopF f parts = akLoopF g parts := by
  intro f
  induction f with
  | zero =>
    intro g parts hf _
    have h0 : parts = [] := List.eq_nil_of_length_eq_zero (Nat.le_zero.mp hf)
    subst h0
    rw [akLoopF_nil, akLoopF_nil]
  | succ f ih =>
    intro g parts hf hg
    cases g with
    | zero =>
      have h0 : parts = [] := List.eq_nil_of_length_eq_zero (Nat.le_zero.mp hg)
      subst h0
      rw [akLoopF_nil, akLoopF_nil]
    | succ g' =>
      rw [akLoopF, akLoopF]
      cases hc : parts.contains "ak"
      · rfl
      · have hmem : "ak" ∈ parts := List.mem_of_elem_eq_true hc
        have hlen1 : 1 ≤ parts.length :=
          List.length_pos.mpr (by rintro rfl; simp at hmem)
        have herase : (parts.erase "ak").length = parts.length - 1 :=
          List.length_erase_of_mem hmem
        rw [if_pos rfl, if_pos rfl]
        by_cases hb : (0 < idxOf "ak" parts && idxOf "ak" parts < parts.length - 1) = true
        · rw [if_pos hb, if_pos hb]
          have hb' := hb
          rw [Bool.and_eq_true, decide_eq_true_iff, decide_eq_true_iff] at hb'
          cases e1 : parts.get? (idxOf "ak" parts - 1) with
          | none => simp only [e1]
          | some left =>
            cases e2 : parts.get? (idxOf "ak" parts + 1) with
            | none => simp only [e1, e2]
            | some right =>
              simp only [e1, e2]
              by_cases hd : (pyIsDigit left && pyIsDigit right) = true
              · rw [if_pos hd, if_pos hd]
                cases p1 : pyInt left with
                | none => simp only [p1]
                | some l =>
                  cases p2 : pyInt right with
                  | none => simp only [p1, p2]
                  | some r =>
                    simp only [p1, p2]
                    apply ih
                    · rw [length_take_drop_splice _ hb'.1 hb'.2]; omega
                    · rw [length_take_drop_splice _ hb'.1 hb'.2]; omega
              · rw [if_neg hd, if_neg hd]
                apply ih <;> omega
        · rw [if_neg hb, if_neg hb]
          apply ih <;> omega

theorem akLoop_of_big_fuel {f : Nat} {parts : List String} (h : parts.length ≤ f) :
    akLoopF f parts = akLoop parts :=
  akLoopF_congr f parts.length parts h (Nat.le_refl _)

theorem isDecimalStr_pyIsDigit {s : String} (h : isDecimalStr s = true) :
    pyIsDigit s = true := by
  rw [isDecimalStr, Bool.and_eq_true, List.all_eq_true] at h
  rw [pyIsDigit, Bool.and_eq_true, List.all_eq_true]
  refine ⟨h.1, fun c hc => ?_⟩
  rw [pyDigitChar]
  simp [h.2 c hc]

theorem isDecimalStr_ne_ak {s : String} (h : isDecimalStr s = true) : s ≠ "ak" := by
  rintro rfl
  simp [isDecimalStr] at h

theorem pyInt_of_decimal {s : String} (h : isDecimalStr s = true) :
    pyInt s = some (digitsToNat s) := by
  rw [pyInt, if_pos h]

theorem idxOf_middle : ∀ (pre : List String), "ak" ∉ pre → ∀ (l : String), l ≠ "ak" →
    ∀ rest, idxOf "ak" (pre ++ l :: "ak" :: rest) = pre.length + 1 := by
  intro pre
  induction pre with
  | nil =>
    intro _ l hl rest
    simp [idxOf, hl]
  | cons b t ih =>
    intro h l hl rest
    have hb : b ≠ "ak" := fun he => h (by simp [he])
    have ht : "ak" ∉ t := fun he => h (by simp [he])
    rw [List.cons_append, idxOf, if_neg hb, ih ht l hl rest, List.length_cons]

theorem get?_append_self : ∀ (pre : List String) (x : String) (rest : List String),
    (pre ++ x :: rest).get? pre.length = some x := by
  intro pre
  induction pre with
  | nil => intro x rest; rfl
  | cons b t ih => intro x rest; simpa [List.get?] using ih x rest

theorem erase_ak_middle : ∀ (pre : List String), "ak" ∉ pre → ∀ (l : String), l ≠ "ak" →
    ∀ rest, (pre ++ l :: "ak" :: rest).erase "ak" = pre ++ l :: rest := by
  intro pre
  induction pre with
  | nil =>
    intro _ l hl rest
    have hl' : (l == "ak") = false := by simp [hl]
    simp [List.erase_cons, hl']
  | cons b t ih =>
    intro h l hl rest
    have hb : b ≠ "ak" := fun he => h (by simp [he])
    have hb' : (b == "ak") = false := by simp [hb]
    have ht : "ak" ∉ t := fun he => h (by simp [he])
    simp [List.erase_cons, hb', ih ht l hl rest]

theorem contains_ak_middle (pre : List String) (l : String) (rest : List String) :
    (pre ++ l :: "ak" :: rest).contains "ak" = true :=
  List.elem_eq_true_of_mem (by simp)

/-- C2 amended, part 1 (the splice law): while scanning for connectors the
combiner only treats the literal `"ak"`; the leftmost `"ak"` flanked by
two decimal digit strings is replaced, together with its neighbours, by
the digit string of their sum. -/
theorem akLoop_splice (pre : List String) (l r : String) (post : List String)
    (hpre : "ak" ∉ pre) (hl : isDecimalStr l = true) (hr : isDecimalStr r = true) :
    akLoop (pre ++ l :: "ak" :: r :: post)
      = akLoop (pre ++ natToStr (digitsToNat l + digitsToNat r) :: post) := by
  have hlne : l ≠ "ak" := isDecimalStr_ne_ak hl
  have hidx : idxOf "ak" (pre ++ l :: "ak" :: r :: post) = pre.length + 1 :=
    idxOf_middle pre hpre l hlne (r :: post)
  have hlen : (pre ++ l :: "ak" :: r :: post).length = pre.length + 3 + post.length := by
    simp; omega
  have e1 : (pre ++ l :: "ak" :: r :: post).get? (pre.length + 1 - 1) = some l := by
    rw [show pre.length + 1 - 1 = pre.length from rfl]
    exact get?_append_self pre l ("ak" :: r :: post)
  have e2 : (pre ++ l :: "ak" :: r :: post).get? (pre.length + 1 + 1) = some r := by
    have h3 : pre ++ l :: "ak" :: r :: post = (pre ++ [l, "ak"]) ++ r :: post := by simp
    have h4 : pre.length + 1 + 1 = (pre ++ [l, "ak"]).length := by simp
    rw [h3, h4]
    exact get?_append_self (pre ++ [l, "ak"]) r post
  have htake : (pre ++ l :: "ak" :: r :: post).take (pre.length + 1 - 1) = pre := by
    rw [show pre.length + 1 - 1 = pre.length from rfl]
    exact List.take_left pre (l :: "ak" :: r :: post)
  have hdrop : (pre ++ l :: "ak" :: r :: post).drop (pre.length + 1 + 2) = post := by
    have h3 : pre ++ l :: "ak" :: r :: post = (pre ++ [l, "ak", r]) ++ post := by simp
    have h4 : pre.length + 1 + 2 = (pre ++ [l, "ak", r]).length := by simp
    rw [h3, h4]
    exact List.drop_left _ _
  have hbound : (0 < pre.length + 1
      && pre.length + 1 < (pre ++ l :: "ak" :: r :: post).length - 1) = true := by
    rw [Bool.and_eq_true, decide_eq_true_iff, decide_eq_true_iff, hlen]
    omega
  have hdig : (pyIsDigit l && pyIsDigit r) = true := by
    rw [Bool.and_eq_true]
    exact ⟨isDecimalStr_pyIsDigit hl, isDecimalStr_pyIsDigit hr⟩
  rw [akLoop]
  rw [show (pre ++ l :: "ak" :: r :: post).length = (pre.length + 2 + post.length) + 1 by
    rw [hlen]; omega]
  rw [akLoopF]
  rw [contains_ak_middle]
  rw [if_pos rfl]
  simp only [hidx]
  rw [if_pos hbound]
  simp only [e1, e2]
  rw [if_pos hdig]
  simp only [pyInt_of_decimal hl, pyInt_of_decimal hr]
  rw [htake, hdrop]
  apply akLoop_of_big_fuel
  simp only [List.length_append, List.length_cons]
  omega

/-- C2 amended, part 2 (the drop law): a leftmost `"ak"` that is not
strictly between two digit strings — either because it is the final
token or because the flanking pair fails the digit test — is simply
removed (`parts.remove("ak")`) and the loop restarts. -/
theorem akLoop_drop (pre : List String) (l : String) (rest : List String)
    (hpre : "ak" ∉ pre) (hlne : l ≠ "ak")
    (hguard : rest = []
      ∨ ∃ r post, rest = r :: post ∧ (pyIsDigit l && pyIsDigit r) = false) :
    akLoop (pre ++ l :: "ak" :: rest) = akLoop (pre ++ l :: rest) := by
  have hidx : idxOf "ak" (pre ++ l :: "ak" :: rest) = pre.length + 1 :=
    idxOf_middle pre hpre l hlne rest
  have herase : (pre ++ l :: "ak" :: rest).erase "ak" = pre ++ l :: rest :=
    erase_ak_middle pre hpre l hlne rest
  have hlen : (pre ++ l :: "ak" :: rest).length = pre.length + 2 + rest.length := by
    simp; omega
  have e1 : (pre ++ l :: "ak" :: rest).get? (pre.length + 1 - 1) = some l := by
    rw [show pre.length + 1 - 1 = pre.length from rfl]
    exact get?_append_self pre l ("ak" :: rest)
  rw [akLoop]
  rw [show (pre ++ l :: "ak" :: rest).length = (pre.length + 1 + rest.length) + 1 by
    rw [hlen]; omega]
  rw [akLoopF]
  rw [contains_ak_middle]
  rw [if_pos rfl]
  simp only [hidx]
  rcases hguard with rfl | ⟨r, post, rfl, hg⟩
  · rw [if_neg (by
      rw [Bool.and_eq_true, decide_eq_true_iff, decide_eq_true_iff]
      rintro ⟨-, h2⟩
      rw [hlen] at h2
      simp only [List.length_nil] at h2
      omega)]
    rw [herase]
    apply akLoop_of_big_fuel
    simp only [List.length_append, List.length_cons]
    omega
  · rw [if_pos (by
      rw [Bool.and_eq_true, decide_eq_true_iff, decide_eq_true_iff, hlen]
      simp only [List.length_cons]
      omega)]
    have e2 : (pre ++ l :: "ak" :: r :: post).get? (pre.length + 1 + 1) = some r := by
      have h3 : pre ++ l :: "ak" :: r :: post = (pre ++ [l, "ak"]) ++ r :: post := by simp
      have h4 : pre.length + 1 + 1 = (pre ++ [l, "ak"]).length := by simp
      rw [h3, h4]
      exact get?_append_self (pre ++ [l, "ak"]) r post
    simp only [e1, e2]
    rw [if_neg (by rw [hg]; exact Bool.false_ne_true)]
    rw [herase]
    apply akLoop_of_big_fuel
    simp only [List.length_append, List.length_cons]
    omega

/-- C2 amended: only the literal connector `"ak"` participates in
connector addition — the leftmost `"ak"` strictly between two decimal
digit strings is replaced by the digit string of their sum
(`akLoop_splice` gives the general law), while `et`, `you` and `manqué`
are left as ordinary words for the trailing-text output; the two
concrete laws of the claim hold. -/
theorem c2_amended_connector_law :
    (∀ (pre : List String) (l r : String) (post : List String),
        "ak" ∉ pre → isDecimalStr l = true → isDecimalStr r = true →
        akLoop (pre ++ l :: "ak" :: r :: post)
          = akLoop (pre ++ natToStr (digitsToNat l + digitsToNat r) :: post))
    ∧ convert_to_number ["fukk", "ak", "juróom", "benn"] = some "16"
    ∧ convert_to_number ["ñaar", "fukk", "ak", "juróom", "ñaar"] = some "27" :=
  ⟨akLoop_splice, by decide, by decide⟩

/-- Witness for C2 at a concrete state: `["3", "ak", "4"]` inside
context becomes the sum token `"7"`. -/
theorem c2_amended_connector_law_witness :
    ("ak" ∉ (["99"] : List String)
      ∧ isDecimalStr "3" = true ∧ isDecimalStr "4" = true)
    ∧ akLoop (["99"] ++ "3" :: "ak" :: "4" :: ["x"])
        = akLoop (["99"] ++ natToStr (digitsToNat "3" + digitsToNat "4") :: ["x"]) :=
  ⟨⟨by decide, by decide, by decide⟩,
   c2_amended_connector_law.1 ["99"] "3" "4" ["x"] (by decide) (by decide) (by decide)⟩

/-! ## Claim C8: `normalize_phone_numbers` -/

theorem phoneCollect_card : ∀ (ws acc : List String), acc.length ≤ 12 →
    (phoneCollect ws acc).1.length ≤ 12 := by
  intro ws
  induction ws with
  | nil => intro acc h; exact h
  | cons w rest ih =>
    intro acc h
    rw [phoneCollect]
    by_cases h12 : 12 ≤ acc.length
    · rw [if_pos h12]; exact h
    · rw [if_neg h12]
      have h11 : acc.length ≤ 11 := by omega
      by_cases hd : pyIsDigit w = true
      · rw [if_pos hd]
        exact ih _ (by simp only [List.length_append, List.length_cons, List.length_nil]; omega)
      · rw [if_neg hd]
        cases ho : french_ones.lookup w with
        | some v =>
          exact ih _ (by simp only [List.length_append, List.length_cons, List.length_nil]; omega)
        | none =>
          cases ht : french_tens.lookup w with
          | some v =>
            exact ih _ (by simp only [List.length_append, List.length_cons, List.length_nil]; omega)
          | none =>
            by_cases hc : (w == "cent") = true
            · rw [if_pos hc]; exact ih _ (by omega)
            · rw [if_neg hc]
              by_cases he : (w == "et" || w == "-") = true
              · rw [if_pos he]; exact ih _ (by omega)
              · rw [if_neg he]; exact h

theorem phoneCollect_len : ∀ (ws acc : List String),
    (phoneCollect ws acc).1.length + (phoneCollect ws acc).2.length
      ≤ acc.length + ws.length := by
  intro ws
  induction ws with
  | nil => intro acc; simp [phoneCollect]
  | cons w rest ih =>
    intro acc
    rw [phoneCollect]
    by_cases h12 : 12 ≤ acc.length
    · rw [if_pos h12]
    · rw [if_neg h12]
      by_cases hd : pyIsDigit w = true
      · rw [if_pos hd]
        have := ih (acc ++ [w])
        simp only [List.length_append, List.length_cons, List.length_nil] at this ⊢
        omega
      · rw [if_neg hd]
        cases ho : french_ones.lookup w with
        | some v =>
          have := ih (acc ++ [natToStr v])
          simp only [List.length_append, List.length_cons, List.length_nil] at this ⊢
          omega
        | none =>
          cases ht : french_tens.lookup w with
          | some v =>
            have := ih (acc ++ [natToStr v])
            simp only [List.length_append, List.length_cons, List.length_nil] at this ⊢
            omega
          | none =>
            by_cases hc : (w == "cent") = true
            · rw [if_pos hc]
              have := ih acc
              simp only [List.length_cons]
              omega
            · rw [if_neg hc]
              by_cases he : (w == "et" || w == "-") = true
              · rw [if_pos he]
                have := ih acc
                simp only [List.length_cons]
                omega
              · rw [if_neg he]

theorem phoneScanF_congr : ∀ (f g : Nat) (ts : List String),
    ts.length ≤ f → ts.length ≤ g → phoneScanF f ts = phoneScanF g ts := by
  intro f
  induction f with
  | zero =>
    intro g ts hf _
    have h0 : ts = [] := List.eq_nil_of_length_eq_zero (Nat.le_zero.mp hf)
    subst h0
    cases g <;> rfl
  | succ f ih =>
    intro g ts hf hg
    cases g with
    | zero =>
      have h0 : ts = [] := List.eq_nil_of_length_eq_zero (Nat.le_zero.mp hg)
      subst h0
      rfl
    | succ g' =>
      cases ts with
      | nil => rfl
      | cons w ws =>
        rw [phoneScanF, phoneScanF]
        have hsum := phoneCollect_len (w :: ws) []
        simp only [List.length_nil, Nat.zero_add] at hsum
        by_cases h6 : 6 ≤ (phoneCollect (w :: ws) []).1.length
        · rw [if_pos h6, if_pos h6]
          have h2 : (phoneCollect (w :: ws) []).2.length ≤ ws.length := by
            simp only [List.length_cons] at hsum
            omega
          have hlen : ws.length ≤ f := by
            simp only [List.length_cons] at hf
            omega
          have hlen' : ws.length ≤ g' := by
            simp only [List.length_cons] at hg
            omega
          by_cases h9 : ((String.join ((phoneCollect (w :: ws) []).1.takeWhile phoneDigitOK)).length == 9) = true
          · rw [if_pos h9, if_pos h9]
            exact congrArg _ (ih g' _ (by omega) (by omega))
          · rw [if_neg h9, if_neg h9]
            by_cases h8 : ((String.join ((phoneCollect (w :: ws) []).1.takeWhile phoneDigitOK)).length == 8) = true
            · rw [if_pos h8, if_pos h8]
              exact congrArg _ (ih g' _ (by omega) (by omega))
            · rw [if_neg h8, if_neg h8]
              exact congrArg _ (ih g' ws hlen hlen')
        · rw [if_neg h6, if_neg h6]
          exact congrArg _ (ih g' ws (by simp only [List.length_cons] at hf; omega)
            (by simp only [List.length_cons] at hg; omega))

theorem phoneScanF_big_fuel {f : Nat} {ts : List String} (h : ts.length ≤ f) :
    phoneScanF f ts = normalize_phone_numbers ts :=
  phoneScanF_congr f ts.length ts h (Nat.le_refl _)

/-- C8: the collection of a run is capped at 12 parts; a run is
rewritten only when it has at least 6 parts and the filtered digit
concatenation has exactly 9 or 8 digits (otherwise the current token is
emitted unchanged and scanning restarts at the next token); 9-digit runs
are grouped 2-3-2-2 and 8-digit runs 2-3-3, the groups concatenating
back to the digit string; a qualifying all-singles 9-token run and a
short non-qualifying run behave accordingly. -/
theorem c8_phone_run_laws :
    (∀ ws : List String, (phoneCollect ws []).1.length ≤ 12)
    ∧ (∀ (w : String) (ws : List String),
        ¬(6 ≤ (phoneCollect (w :: ws) []).1.length
          ∧ ((String.join ((phoneCollect (w :: ws) []).1.takeWhile phoneDigitOK)).length = 9
            ∨ (String.join ((phoneCollect (w :: ws) []).1.takeWhile phoneDigitOK)).length = 8)) →
        normalize_phone_numbers (w :: ws) = w :: normalize_phone_numbers ws)
    ∧ (∀ (w : String) (ws : List String),
        6 ≤ (phoneCollect (w :: ws) []).1.length →
        (String.join ((phoneCollect (w :: ws) []).1.takeWhile phoneDigitOK)).length = 9 →
        normalize_phone_numbers (w :: ws)
          = fmt9 (String.join ((phoneCollect (w :: ws) []).1.takeWhile phoneDigitOK))
            ++ normalize_phone_numbers (phoneCollect (w :: ws) []).2)
    ∧ (∀ (w : String) (ws : List String),
        6 ≤ (phoneCollect (w :: ws) []).1.length →
        (String.join ((phoneCollect (w :: ws) []).1.takeWhile phoneDigitOK)).length = 8 →
        normalize_phone_numbers (w :: ws)
          = fmt8 (String.join ((phoneCollect (w :: ws) []).1.takeWhile phoneDigitOK))
            ++ normalize_phone_numbers (phoneCollect (w :: ws) []).2)
    ∧ (∀ ds : String, ds.length = 9 →
        (fmt9 ds).map String.length = [2, 3, 2, 2] ∧ String.join (fmt9 ds) = ds)
    ∧ (∀ ds : String, ds.length = 8 →
        (fmt8 ds).map String.length = [2, 3, 3] ∧ String.join (fmt8 ds) = ds)
    ∧ normalize_phone_numbers
        ["sept", "huit", "sept", "sept", "huit", "trois", "deux", "quatre", "zéro"]
        = ["78", "778", "32", "40"]
    ∧ normalize_phone_numbers ["sept", "huit", "sept"] = ["sept", "huit", "sept"] := by
  have hstep : ∀ (w : String) (ws : List String),
      normalize_phone_numbers (w :: ws) =
        (if 6 ≤ (phoneCollect (w :: ws) []).1.length then
          if ((String.join ((phoneCollect (w :: ws) []).1.takeWhile phoneDigitOK)).length == 9) = true then
            fmt9 (String.join ((phoneCollect (w :: ws) []).1.takeWhile phoneDigitOK))
              ++ normalize_phone_numbers (phoneCollect (w :: ws) []).2
          else if ((String.join ((phoneCollect (w :: ws) []).1.takeWhile phoneDigitOK)).length == 8) = true then
            fmt8 (String.join ((phoneCollect (w :: ws) []).1.takeWhile phoneDigitOK))
              ++ normalize_phone_numbers (phoneCollect (w :: ws) []).2
          else w :: normalize_phone_numbers ws
        else w :: normalize_phone_numbers ws) := by
    intro w ws
    have hsum := phoneCollect_len (w :: ws) []
    simp only [List.length_nil, Nat.zero_add, List.length_cons] at hsum
    rw [normalize_phone_numbers, List.length_cons, phoneScanF]
    by_cases h6 : 6 ≤ (phoneCollect (w :: ws) []).1.length
    · rw [if_pos h6, if_pos h6]
      have h2 : (phoneCollect (w :: ws) []).2.length ≤ ws.length := by omega
      by_cases h9 : ((String.join ((phoneCollect (w :: ws) []).1.takeWhile phoneDigitOK)).length == 9) = true
      · rw [if_pos h9, if_pos h9]
        exact congrArg _ (phoneScanF_big_fuel h2)
      · rw [if_neg h9, if_neg h9]
        by_cases h8 : ((String.join ((phoneCollect (w :: ws) []).1.takeWhile phoneDigitOK)).length == 8) = true
        · rw [if_pos h8, if_pos h8]
          exact congrArg _ (phoneScanF_big_fuel h2)
        · rw [if_neg h8, if_neg h8]
          exact congrArg _ (phoneScanF_big_fuel (Nat.le_refl _))
    · rw [if_neg h6, if_neg h6]
      exact congrArg _ (phoneScanF_big_fuel (Nat.le_refl _))
  refine ⟨fun ws => phoneCollect_card ws [] (by simp), ?_, ?_, ?_, ?_, ?_, by decide, by decide⟩
  · intro w ws hq
    rw [hstep w ws]
    by_cases h6 : 6 ≤ (phoneCollect (w :: ws) []).1.length
    · rw [if_pos h6]
      have h9 : ((String.join ((phoneCollect (w :: ws) []).1.takeWhile phoneDigitOK)).length == 9) = false := by
        rw [beq_eq_false_iff_ne]
        intro he
        exact hq ⟨h6, Or.inl he⟩
      have h8 : ((String.join ((phoneCollect (w :: ws) []).1.takeWhile phoneDigitOK)).length == 8) = false := by
        rw [beq_eq_false_iff_ne]
        intro he
        exact hq ⟨h6, Or.inr he⟩
      rw [h9, h8]
      simp
    · rw [if_neg h6]
  · intro w ws h6 h9
    rw [hstep w ws, if_pos h6]
    have h9' : ((String.join ((phoneCollect (w :: ws) []).1.takeWhile phoneDigitOK)).length == 9) = true := by
      rw [beq_iff_eq]
      exact h9
    rw [h9']
    simp
  · intro w ws h6 h8
    rw [hstep w ws, if_pos h6]
    have h9' : ((String.join ((phoneCollect (w :: ws) []).1.takeWhile phoneDigitOK)).length == 9) = false := by
      rw [beq_eq_false_iff_ne]
      omega
    have h8' : ((String.join ((phoneCollect (w :: ws) []).1.takeWhile phoneDigitOK)).length == 8) = true := by
      rw [beq_iff_eq]
      exact h8
    rw [h9', h8']
    simp
  · intro ds h9
    have hd : ds.data.length = 9 := h9
    constructor
    · simp only [fmt9, List.map_cons, List.map_nil, strSlice, String.length_mk,
        List.length_take, List.length_drop, hd]
      decide
    · have hcat : ds.data.take 2 ++ ((ds.data.drop 2).take 3
          ++ ((ds.data.drop 5).take 2 ++ (ds.data.drop 7).take 2)) = ds.data := by
        have t1 : (ds.data.drop 7).take 2 = ds.data.drop 7 :=
          List.take_of_length_le (by simp [hd])
        have t2 : (ds.data.drop 5).drop 2 = ds.data.drop 7 := by
          rw [List.drop_drop]
        have t3 : (ds.data.drop 2).drop 3 = ds.data.drop 5 := by
          rw [List.drop_drop]
        rw [t1, ← t2, List.take_append_drop, ← t3, List.take_append_drop,
          List.take_append_drop]
      simp only [fmt9, String.join, strSlice]
      apply String.ext
      simpa using hcat
  · intro ds h8
    have hd : ds.data.length = 8 := h8
    constructor
    · simp only [fmt8, List.map_cons, List.map_nil, strSlice, String.length_mk,
        List.length_take, List.length_drop, hd]
      decide
    · have hcat : ds.data.take 2 ++ ((ds.data.drop 2).take 3
          ++ (ds.data.drop 5).take 3) = ds.data := by
        have t1 : (ds.data.drop 5).take 3 = ds.data.drop 5 :=
          List.take_of_length_le (by simp [hd])
        have t3 : (ds.data.drop 2).drop 3 = ds.data.drop 5 := by
          rw [List.drop_drop]
        rw [t1, ← t3, List.take_append_drop, List.take_append_drop]
      simp only [fmt8, String.join, strSlice]
      apply String.ext
      simpa using hcat

/-- Witness for C8 at concrete inputs: the digit-string `"123456789"`
groups as 2-3-2-2, and the non-qualifying two-token run is emitted
unchanged. -/
theorem c8_phone_run_laws_witness :
    (("123456789" : String).length = 9
      ∧ (fmt9 "123456789").map String.length = [2, 3, 2, 2]
      ∧ String.join (fmt9 "123456789") = "123456789")
    ∧ normalize_phone_numbers ["deux", "trois"] = "deux" :: normalize_phone_numbers ["trois"] := by
  refine ⟨⟨by decide, (c8_phone_run_laws.2.2.2.2.1 "123456789" (by decide)).1,
    (c8_phone_run_laws.2.2.2.2.1 "123456789" (by decide)).2⟩, ?_⟩
  exact c8_phone_run_laws.2.1 "deux" ["trois"] (by decide)

/-! ## Claim C10: `_format_with_spaces` -/

theorem mem_chunks3_length {l c : List Char} (h : c ∈ chunks3 l) :
    1 ≤ c.length ∧ c.length ≤ 3 := by
  induction l using chunks3.induct with
  | case1 => simp [chunks3] at h
  | case2 a => simp [chunks3] at h; simp [h]
  | case3 a b => simp [chunks3] at h; simp [h]
  | case4 a b c' rest ih =>
    rcases List.mem_cons.mp h with rfl | h
    · simp
    · exact ih h

theorem mem_chunks3_subset {l c : List Char} (h : c ∈ chunks3 l) :
    ∀ x ∈ c, x ∈ l := by
  induction l using chunks3.induct with
  | case1 => simp [chunks3] at h
  | case2 a => simp [chunks3] at h; simp [h]
  | case3 a b => simp [chunks3] at h; simp [h]
  | case4 a b c' rest ih =>
    rcases List.mem_cons.mp h with rfl | h
    · intro x hx
      simp only [List.mem_cons] at hx ⊢
      tauto
    · intro x hx
      have := ih h x hx
      simp [this]

theorem chunks3_flatten (l : List Char) : (chunks3 l).flatten = l := by
  induction l using chunks3.induct with
  | case1 => rfl
  | case2 a => rfl
  | case3 a b => rfl
  | case4 a b c rest ih => simp [chunks3, ih]

theorem chunks3_eq_nil_iff (l : List Char) : chunks3 l = [] ↔ l = [] := by
  induction l using chunks3.induct <;> simp [chunks3]

theorem chunks3_dropLast_length {l c : List Char} (h : c ∈ (chunks3 l).dropLast) :
    c.length = 3 := by
  induction l using chunks3.induct with
  | case1 => simp [chunks3] at h
  | case2 a => simp [chunks3] at h
  | case3 a b => simp [chunks3] at h
  | case4 a b c' rest ih =>
    rw [chunks3] at h
    by_cases hr : chunks3 rest = []
    · simp [hr] at h
    · rw [List.dropLast_cons_of_ne_nil hr] at h
      rcases List.mem_cons.mp h with rfl | h
      · rfl
      · exact ih h

theorem joinChunks_append_single (xs : List (List Char)) (y : List Char) (h : xs ≠ []) :
    joinChunks (xs ++ [y]) = joinChunks xs ++ ' ' :: y := by
  induction xs with
  | nil => exact absurd rfl h
  | cons c cs ih =>
    cases cs with
    | nil => rfl
    | cons c' cs' =>
      have : joinChunks ((c' :: cs') ++ [y]) = joinChunks (c' :: cs') ++ ' ' :: y :=
        ih (by simp)
      simp only [List.cons_append, joinChunks] at this ⊢
      simp [this]

theorem joinChunks_reverse : ∀ cs : List (List Char),
    (joinChunks cs).reverse = joinChunks ((cs.map List.reverse).reverse)
  | [] => rfl
  | [c] => by simp [joinChunks]
  | c :: d :: ds => by
    have ih := joinChunks_reverse (d :: ds)
    have hne : ((d :: ds).map List.reverse).reverse ≠ [] := by simp
    have h1 : ((c :: d :: ds).map List.reverse).reverse
        = ((d :: ds).map List.reverse).reverse ++ [c.reverse] := by simp
    rw [h1, joinChunks_append_single _ _ hne, ← ih]
    show (c ++ ' ' :: joinChunks (d :: ds)).reverse = _
    simp

theorem joinChunks_filter : ∀ cs : List (List Char),
    (∀ c ∈ cs, ∀ x ∈ c, x ≠ ' ') →
    (joinChunks cs).filter (fun c => c != ' ') = cs.flatten
  | [], _ => rfl
  | [c], h => by
    have hc : c.filter (fun x => x != ' ') = c := by
      rw [List.filter_eq_self]
      intro a ha
      simpa using h c (by simp) a ha
    simpa [joinChunks] using hc
  | c :: d :: ds, h => by
    have hc : c.filter (fun x => x != ' ') = c := by
      rw [List.filter_eq_self]
      intro a ha
      simpa using h c (by simp) a ha
    have ih := joinChunks_filter (d :: ds) (fun c' hc' x hx => h c' (by simp [hc']) x hx)
    show (c ++ ' ' :: joinChunks (d :: ds)).filter (fun x => x != ' ')
        = c ++ (d :: ds).flatten
    rw [List.filter_append, hc, List.filter_cons]
    simp only [show ((' ' != ' ') = false) from rfl, Bool.false_eq_true, if_false]
    rw [ih]

/-- C10: `_format_with_spaces` on a nonempty decimal-digit string is a
round trip — deleting the inserted spaces recovers the input, the output
splits into space-separated digit groups whose first group has one to
three digits while all later groups have exactly three, and strings of
at most three characters are returned unchanged. -/
theorem c10_format_with_spaces (s : String) (hne : s.data ≠ [])
    (hdig : ∀ c ∈ s.data, c.isDigit) :
    (formatWithSpaces s).data.filter (fun c => c != ' ') = s.data
    ∧ (∃ g0 gr, (formatWithSpaces s).data = joinChunks (g0 :: gr)
        ∧ (g0 :: gr).flatten = s.data
        ∧ 1 ≤ g0.length ∧ g0.length ≤ 3
        ∧ (∀ g ∈ gr, g.length = 3)
        ∧ (∀ g ∈ g0 :: gr, ∀ c ∈ g, c.isDigit))
    ∧ (s.length ≤ 3 → formatWithSpaces s = s) := by
  have hsp : ∀ c ∈ s.data, c ≠ ' ' := by
    intro c hc he
    have := hdig c hc
    rw [he] at this
    exact absurd this (by decide)
  by_cases hlen : s.length ≤ 3
  · have hfmt : formatWithSpaces s = s := by simp [formatWithSpaces, hlen]
    refine ⟨?_, ⟨s.data, [], ?_, ?_, ?_, ?_, ?_, ?_⟩, fun _ => hfmt⟩
    · rw [hfmt, List.filter_eq_self]
      intro a ha; simpa using hsp a ha
    · rw [hfmt]; rfl
    · simp
    · exact List.length_pos.mpr hne
    · exact hlen
    · simp
    · intro g hg c hc
      rcases List.mem_cons.mp hg with rfl | hg
      · exact hdig c hc
      · simp at hg
  · have hfmt : (formatWithSpaces s).data
        = joinChunks ((chunks3 s.data.reverse).map List.reverse).reverse := by
      simp only [formatWithSpaces, if_neg hlen]
      rw [joinChunks_reverse]
    set rv := s.data.reverse with hrv
    have hrvne : rv ≠ [] := by simpa [hrv] using hne
    have hcne : chunks3 rv ≠ [] := by
      rw [ne_eq, chunks3_eq_nil_iff]; exact hrvne
    -- peel the last chunk: the reversed chunk list starts with it
    have hsplit : chunks3 rv = (chunks3 rv).dropLast ++ [(chunks3 rv).getLast hcne] :=
      (List.dropLast_append_getLast hcne).symm
    set lastC := (chunks3 rv).getLast hcne with hlastC
    set initC := (chunks3 rv).dropLast with hinitC
    have hgs : ((chunks3 rv).map List.reverse).reverse
        = lastC.reverse :: (initC.map List.reverse).reverse := by
      conv_lhs => rw [hsplit]
      simp
    have hlast_mem : lastC ∈ chunks3 rv := List.getLast_mem hcne
    -- membership facts transported through reverse/map
    have hmem_gr : ∀ g ∈ (initC.map List.reverse).reverse, ∃ c ∈ initC, g = c.reverse := by
      intro g hg
      rw [List.mem_reverse, List.mem_map] at hg
      rcases hg with ⟨c, hc, rfl⟩
      exact ⟨c, hc, rfl⟩
    have hjoin : (lastC.reverse :: (initC.map List.reverse).reverse).flatten = s.data := by
      have h2 : (lastC.reverse :: (initC.map List.reverse).reverse)
          = ((chunks3 rv).map List.reverse).reverse := hgs.symm
      rw [h2, ← List.reverse_flatten, chunks3_flatten]
      simp [hrv]
    have hchars : ∀ g ∈ lastC.reverse :: (initC.map List.reverse).reverse,
        ∀ c ∈ g, c ∈ s.data := by
      intro g hg c hc
      rcases List.mem_cons.mp hg with rfl | hg
      · have : c ∈ lastC := by simpa using hc
        have := mem_chunks3_subset hlast_mem c this
        simpa [hrv] using this
      · rcases hmem_gr g hg with ⟨ch, hch, rfl⟩
        have : c ∈ ch := by simpa using hc
        have hmem : ch ∈ chunks3 rv := by
          rw [hinitC] at hch
          exact List.dropLast_subset _ hch
        have := mem_chunks3_subset hmem c this
        simpa [hrv] using this
    refine ⟨?_, ⟨lastC.reverse, (initC.map List.reverse).reverse, ?_, hjoin, ?_, ?_, ?_, ?_⟩, fun h => absurd h hlen⟩
    · rw [hfmt, hgs]
      rw [joinChunks_filter]
      · exact hjoin
      · intro g hg x hx
        exact hsp x (hchars g hg x hx)
    · rw [hfmt, hgs]
    · have := (mem_chunks3_length hlast_mem).1; simpa using this
    · have := (mem_chunks3_length hlast_mem).2; simpa using this
    · intro g hg
      rcases hmem_gr g hg with ⟨c, hc, rfl⟩
      have : c.length = 3 := chunks3_dropLast_length (by rwa [← hinitC])
      simpa using this
    · intro g hg c hc
      exact hdig c (hchars g hg c hc)

/-- Witness for C10 at the concrete digit string `"1234567"`. -/
theorem c10_format_with_spaces_witness :
    (("1234567" : String).data ≠ [] ∧ ∀ c ∈ ("1234567" : String).data, c.isDigit)
    ∧ ((formatWithSpaces "1234567").data.filter (fun c => c != ' ')
        = ("1234567" : String).data
      ∧ (∃ g0 gr, (formatWithSpaces "1234567").data = joinChunks (g0 :: gr)
          ∧ (g0 :: gr).flatten = ("1234567" : String).data
          ∧ 1 ≤ g0.length ∧ g0.length ≤ 3
          ∧ (∀ g ∈ gr, g.length = 3)
          ∧ (∀ g ∈ g0 :: gr, ∀ c ∈ g, c.isDigit))
      ∧ (("1234567" : String).length ≤ 3 → formatWithSpaces "1234567" = "1234567")) :=
  ⟨⟨by decide, by decide⟩,
   c10_format_with_spaces "1234567" (by decide) (by decide)⟩

/-! ## Claim C9, counterexample -/

/-- C9 counterexample: `normalize` can raise on well-formed input.  The
token `"²"` passes every `isdigit` guard (superscript two has Unicode
Numeric_Type `Digit`) but `int("²")` raises `ValueError`, modelled by
`none`: the currency pass converts the amount `"²"` before the marker
`"f"` and crashes in `calculate_from_parts`. -/
theorem c9_crash_counterexample :
    pyNormalize ["²", "f"] = none := by decide

/-! ## Claim C9, amended: totality away from the superscript digits

The proof threads one invariant through the pipeline: every token is
free of the superscript digits (`okToks`).  Under it every `isdigit`
guard protecting an `int()` really certifies a decimal digit string, and
every list access is in bounds, so no stage can fail. -/

theorem okStr_iff {s : String} :
    okStr s = true ↔ ∀ c ∈ s.data, okChar c = true := by
  simp [okStr, List.all_eq_true]

theorem okToks_iff {ts : List String} :
    okToks ts = true ↔ ∀ t ∈ ts, okStr t = true := by
  simp [okToks, List.all_eq_true]

theorem okToks_sub {ts ts' : List String} (h : okToks ts = true)
    (hsub : ∀ t ∈ ts', t ∈ ts) : okToks ts' = true :=
  okToks_iff.mpr fun t ht => okToks_iff.mp h t (hsub t ht)

theorem okToks_append {a b : List String} (ha : okToks a = true) (hb : okToks b = true) :
    okToks (a ++ b) = true := by
  rw [okToks_iff] at *
  intro t ht
  rcases List.mem_append.mp ht with h | h
  · exact ha t h
  · exact hb t h

theorem okStr_append {a b : String} (ha : okStr a = true) (hb : okStr b = true) :
    okStr (a ++ b) = true := by
  rw [okStr_iff] at *
  intro c hc
  rcases List.mem_append.mp (by simpa using hc) with h | h
  · exact ha c h
  · exact hb c h

theorem isDigit_okChar {c : Char} (h : c.isDigit = true) : okChar c = true := by
  have h1 : (c == '¹') = false := by
    rw [beq_eq_false_iff_ne]
    rintro rfl
    exact absurd h (by decide)
  have h2 : (c == '²') = false := by
    rw [beq_eq_false_iff_ne]
    rintro rfl
    exact absurd h (by decide)
  have h3 : (c == '³') = false := by
    rw [beq_eq_false_iff_ne]
    rintro rfl
    exact absurd h (by decide)
  simp [okChar, h1, h2, h3]

theorem okChar_pyDigit_isDigit {c : Char} (hok : okChar c = true)
    (hd : pyDigitChar c = true) : c.isDigit = true := by
  rw [okChar, Bool.not_eq_true', Bool.or_eq_false_iff, Bool.or_eq_false_iff] at hok
  rw [pyDigitChar, hok.1.1, hok.1.2, hok.2] at hd
  simpa using hd

theorem okStr_isDecimal {s : String} (hok : okStr s = true)
    (hd : pyIsDigit s = true) : isDecimalStr s = true := by
  rw [pyIsDigit, Bool.and_eq_true, List.all_eq_true] at hd
  rw [isDecimalStr, Bool.and_eq_true, List.all_eq_true]
  exact ⟨hd.1, fun c hc =>
    okChar_pyDigit_isDigit (okStr_iff.mp hok c hc) (hd.2 c hc)⟩

theorem pyInt_ok {s : String} (hok : okStr s = true) (hd : pyIsDigit s = true) :
    pyInt s = some (digitsToNat s) :=
  pyInt_of_decimal (okStr_isDecimal hok hd)

theorem digitChar_isDigit {k : Nat} (h : k < 10) : (digitChar k).isDigit = true := by
  interval_cases k <;> decide

theorem natToStrAux_digits : ∀ (fuel n : Nat), ∀ c ∈ natToStrAux fuel n, c.isDigit = true := by
  intro fuel
  induction fuel with
  | zero => intro n c hc; simp [natToStrAux] at hc
  | succ fuel ih =>
    intro n c hc
    rw [natToStrAux] at hc
    by_cases hn : n < 10
    · rw [if_pos hn] at hc
      simp only [List.mem_singleton] at hc
      subst hc
      exact digitChar_isDigit hn
    · rw [if_neg hn] at hc
      rcases List.mem_append.mp hc with h | h
      · exact ih _ c h
      · simp only [List.mem_singleton] at h
        subst h
        exact digitChar_isDigit (Nat.mod_lt _ (by omega))

theorem okStr_natToStr (n : Nat) : okStr (natToStr n) = true :=
  okStr_iff.mpr fun c hc => isDigit_okChar (natToStrAux_digits _ _ c hc)

theorem okChar_pyLowerChar {c : Char} (h : okChar c = true) :
    okChar (pyLowerChar c) = true := by
  rw [pyLowerChar]
  cases hl : asciiLower.lookup c with
  | none => simpa using h
  | some d =>
    have hm : (c, d) ∈ asciiLower := lookup_mem hl
    have hall : ∀ p ∈ asciiLower, okChar p.2 = true := by decide
    simpa using hall _ hm

theorem okStr_pyLower {s : String} (h : okStr s = true) : okStr (pyLower s) = true := by
  rw [okStr_iff] at *
  intro c hc
  simp only [pyLower, List.mem_map] at hc
  rcases hc with ⟨c', hc', rfl⟩
  exact okChar_pyLowerChar (h c' hc')

theorem okStr_joinSpace : ∀ {ts : List String}, okToks ts = true → okStr (joinSpace ts) = true
  | [], _ => by decide
  | [t], h => by
    rw [joinSpace]
    exact okToks_iff.mp h t (by simp)
  | t :: t' :: ts, h => by
    have h1 : okStr t = true := okToks_iff.mp h t (by simp)
    have h2 : okToks (t' :: ts) = true :=
      okToks_sub h (fun x hx => by simp [List.mem_cons.mp hx])
    rw [joinSpace]
    · exact okStr_append (okStr_append h1 (by decide)) (okStr_joinSpace h2)
    · simp

theorem pySplitChars_ok : ∀ (cs acc : List Char),
    (∀ c ∈ cs, okChar c = true) → (∀ c ∈ acc, okChar c = true) →
    ∀ t ∈ pySplitChars cs acc, okStr t = true := by
  intro cs
  induction cs with
  | nil =>
    intro acc _ hacc t ht
    rw [pySplitChars] at ht
    by_cases he : acc.isEmpty = true
    · rw [if_pos he] at ht
      simp at ht
    · rw [if_neg he] at ht
      simp only [List.mem_singleton] at ht
      subst ht
      exact okStr_iff.mpr fun c hc => hacc c (by simpa using hc)
  | cons c cs' ih =>
    intro acc hcs hacc t ht
    have hc : okChar c = true := hcs c (by simp)
    have hcs' : ∀ x ∈ cs', okChar x = true := fun x hx => hcs x (by simp [hx])
    rw [pySplitChars] at ht
    by_cases hsp : (c == ' ') = true
    · rw [if_pos hsp] at ht
      by_cases he : acc.isEmpty = true
      · rw [if_pos he] at ht
        exact ih [] hcs' (by simp) t ht
      · rw [if_neg he] at ht
        rcases List.mem_cons.mp ht with rfl | ht'
        · exact okStr_iff.mpr fun x hx => hacc x (by simpa using hx)
        · exact ih [] hcs' (by simp) t ht'
    · rw [if_neg hsp] at ht
      exact ih (c :: acc) hcs'
        (fun x hx => by
          rcases List.mem_cons.mp hx with rfl | hx'
          · exact hc
          · exact hacc x hx') t ht

theorem okToks_pySplit {s : String} (h : okStr s = true) : okToks (pySplit s) = true :=
  okToks_iff.mpr fun t ht =>
    pySplitChars_ok s.data [] (okStr_iff.mp h) (by simp) t ht

theorem okStr_strJoin : ∀ (l : List String), (∀ s ∈ l, okStr s = true) →
    okStr (String.join l) = true := by
  have haux : ∀ (l : List String) (acc : String), okStr acc = true →
      (∀ s ∈ l, okStr s = true) → okStr (l.foldl (fun r s => r ++ s) acc) = true := by
    intro l
    induction l with
    | nil => intro acc hacc _; exact hacc
    | cons s rest ih =>
      intro acc hacc hl
      rw [List.foldl_cons]
      exact ih _ (okStr_append hacc (hl s (by simp)))
        (fun x hx => hl x (by simp [hx]))
  intro l hl
  exact haux l "" (by decide) hl

theorem okStr_hyphenStep {w tok : String} (h : hyphenStep w = some tok) :
    okStr tok = true := by
  rw [hyphenStep] at h
  split at h
  · cases h; exact okStr_natToStr _
  · split at h
    · cases h; exact okStr_natToStr _
    · dsimp only [] at h
      split at h
      · split at h
        · cases h; exact okStr_natToStr _
        · cases h; exact okStr_natToStr _
      · split at h
        · split at h
          · cases h; exact okStr_natToStr _
          · cases h
        · cases h

theorem okStr_singleWord {w : String} (h : okStr w = true) :
    okStr (singleWord w) = true := by
  rw [singleWord]
  repeat' split
  all_goals first | exact okStr_natToStr _ | exact h

theorem okToks_one {t : String} (h : okStr t = true) : okToks [t] = true := by
  simp [okToks, h]

theorem okToks_convertScanF : ∀ (fuel : Nat) (acc ts : List String), okToks acc = true →
    okToks ts = true → okToks (convertScanF fuel acc ts) = true := by
  intro fuel
  induction fuel with
  | zero => intro acc ts ha _; exact ha
  | succ fuel ih =>
    intro acc ts ha ht
    cases ts with
    | nil => exact ha
    | cons w rest =>
      have hw : okStr w = true := okToks_iff.mp ht w (by simp)
      have hrest : okToks rest = true := okToks_sub ht (fun t hm => by simp [hm])
      cases rest with
      | nil =>
        rw [convertScanF]
        cases hx : (if hasHyphen w then hyphenStep w else none) with
        | some tok =>
          have htok : hyphenStep w = some tok := by
            by_cases hh : hasHyphen w = true
            · rwa [if_pos hh] at hx
            · rw [if_neg hh] at hx; cases hx
          exact ih _ _ (okToks_append ha (okToks_one (okStr_hyphenStep htok))) (by decide)
        | none =>
          simp only []
          by_cases hd : pyIsDigit w = true
          · rw [if_pos hd]
            exact ih _ _ (okToks_append ha (okToks_one hw)) (by decide)
          · rw [if_neg hd]
            exact ih _ _ (okToks_append ha (okToks_one (okStr_singleWord hw))) (by decide)
      | cons x rest2 =>
        have hokx : okToks (x :: rest2) = true := hrest
        have hrest2 : okToks rest2 = true := okToks_sub hrest (fun t hm => by simp [hm])
        rw [convertScanF]
        cases hx : (if hasHyphen w then hyphenStep w else none) with
        | some tok =>
          have htok : hyphenStep w = some tok := by
            by_cases hh : hasHyphen w = true
            · rwa [if_pos hh] at hx
            · rw [if_neg hh] at hx; cases hx
          exact ih _ _ (okToks_append ha (okToks_one (okStr_hyphenStep htok))) hokx
        | none =>
          simp only []
          by_cases hd : pyIsDigit w = true
          · rw [if_pos hd]
            exact ih _ _ (okToks_append ha (okToks_one hw)) hokx
          · rw [if_neg hd]
            by_cases h1 : (w == "juróom" && (wolof_basic.lookup x).isSome) = true
            · rw [if_pos h1]
              exact ih _ _ (okToks_append ha (okToks_one (okStr_natToStr _))) hrest2
            · rw [if_neg h1]
              by_cases h2 : (x == "fukk" && (wolof_basic.lookup w).isSome) = true
              · rw [if_pos h2]
                exact ih _ _ (okToks_append ha (okToks_one (okStr_natToStr _))) hrest2
              · rw [if_neg h2]
                by_cases h3 : (x == "téeméer" && (wolof_basic.lookup w).isSome) = true
                · rw [if_pos h3]
                  exact ih _ _ (okToks_append ha (okToks_one (okStr_natToStr _))) hrest2
                · rw [if_neg h3]
                  by_cases h4 : (x == "junni" && (wolof_basic.lookup w).isSome
                      && !(acc.getLast? == some "20")) = true
                  · rw [if_pos h4]
                    exact ih _ _ (okToks_append ha (okToks_one (okStr_natToStr _))) hrest2
                  · rw [if_neg h4]
                    exact ih _ _ (okToks_append ha (okToks_one (okStr_singleWord hw))) hokx

theorem okToks_convertScan (acc ts : List String) (ha : okToks acc = true)
    (ht : okToks ts = true) : okToks (convertScan acc ts) = true :=
  okToks_convertScanF ts.length acc ts ha ht

theorem akLoopF_ok : ∀ (fuel : Nat) (parts : List String), okToks parts = true →
    ∃ res, akLoopF fuel parts = some res ∧ okToks res = true := by
  intro fuel
  induction fuel with
  | zero => intro parts h; exact ⟨parts, rfl, h⟩
  | succ fuel ih =>
    intro parts h
    rw [akLoopF]
    cases hc : parts.contains "ak"
    · exact ⟨parts, rfl, h⟩
    · rw [if_pos rfl]
      have hmem : "ak" ∈ parts := List.mem_of_elem_eq_true hc
      have hlt : idxOf "ak" parts < parts.length := idxOf_lt_length hmem
      by_cases hb : (0 < idxOf "ak" parts && idxOf "ak" parts < parts.length - 1) = true
      · rw [if_pos hb]
        have hb' := hb
        rw [Bool.and_eq_true, decide_eq_true_iff, decide_eq_true_iff] at hb'
        have e1 : ∃ left, parts.get? (idxOf "ak" parts - 1) = some left := by
          rw [List.get?_eq_get (by omega)]
          exact ⟨_, rfl⟩
        have e2 : ∃ right, parts.get? (idxOf "ak" parts + 1) = some right := by
          rw [List.get?_eq_get (by omega)]
          exact ⟨_, rfl⟩
        obtain ⟨left, e1⟩ := e1
        obtain ⟨right, e2⟩ := e2
        have hleft : okStr left = true :=
          okToks_iff.mp h left (List.get?_mem e1)
        have hright : okStr right = true :=
          okToks_iff.mp h right (List.get?_mem e2)
        simp only [e1, e2]
        by_cases hd : (pyIsDigit left && pyIsDigit right) = true
        · rw [if_pos hd]
          have hd' := hd
          rw [Bool.and_eq_true] at hd'
          simp only [pyInt_ok hleft hd'.1, pyInt_ok hright hd'.2]
          apply ih
          apply okToks_append (okToks_sub h (fun t hmem => List.take_subset _ _ hmem))
          apply okToks_iff.mpr
          intro t hmem
          rcases List.mem_cons.mp hmem with rfl | hmem'
          · exact okStr_natToStr _
          · exact okToks_iff.mp h t (List.drop_subset _ _ hmem')
        · rw [if_neg hd]
          exact ih _ (okToks_sub h (fun t hmem => List.erase_subset _ _ hmem))
      · rw [if_neg hb]
        exact ih _ (okToks_sub h (fun t hmem => List.erase_subset _ _ hmem))

theorem akLoop_ok {parts : List String} (h : okToks parts = true) :
    ∃ res, akLoop parts = some res ∧ okToks res = true :=
  akLoopF_ok parts.length parts h

theorem collectNums_ok : ∀ (ps : List String) (nums : List Nat) (others : List String),
    okToks ps = true → okToks others = true →
    ∃ nums' others', collectNums ps nums others = some (nums', others')
      ∧ okToks others' = true := by
  intro ps
  induction ps with
  | nil => intro nums others _ ho; exact ⟨nums, others, rfl, ho⟩
  | cons p rest ih =>
    intro nums others hp ho
    have hp' : okStr p = true := okToks_iff.mp hp p (by simp)
    have hrest : okToks rest = true :=
      okToks_sub hp (fun t hmem => by simp [hmem])
    rw [collectNums]
    by_cases hd : pyIsDigit p = true
    · rw [if_pos hd]
      simp only [pyInt_ok hp' hd]
      exact ih _ _ hrest ho
    · rw [if_neg hd]
      by_cases hderem : (p == "dërëm" && !nums.isEmpty) = true
      · rw [if_pos hderem]
        exact ih _ _ hrest ho
      · rw [if_neg hderem]
        exact ih _ _ hrest (okToks_append ho (okToks_iff.mpr (by
          intro t hmem
          simp only [List.mem_singleton] at hmem
          subst hmem
          exact hp')))

theorem calculate_from_parts_ok {parts : List String} (h : okToks parts = true) :
    ∃ s, calculate_from_parts parts = some s ∧ okStr s = true := by
  obtain ⟨p2, hak, hp2⟩ := akLoop_ok h
  obtain ⟨nums, others, hcoll, hoth⟩ := collectNums_ok p2 [] [] hp2 (by decide)
  rw [calculate_from_parts]
  simp only [hak, hcoll, Option.bind_eq_bind, Option.some_bind]
  by_cases hn : nums.isEmpty = true
  · rw [if_pos hn]
    exact ⟨_, rfl, okStr_joinSpace hp2⟩
  · rw [if_neg hn]
    by_cases hoths : others.isEmpty = true
    · rw [if_pos hoths]
      exact ⟨_, rfl, okStr_natToStr _⟩
    · rw [if_neg hoths]
      exact ⟨_, rfl, okStr_append (okStr_append (okStr_natToStr _) (by decide))
        (okStr_joinSpace hoth)⟩

theorem convert_to_number_ok {ts : List String} (h : okToks ts = true) :
    ∃ s, convert_to_number ts = some s ∧ okStr s = true := by
  rw [convert_to_number]
  apply calculate_from_parts_ok
  apply okToks_convertScan [] _ (by decide)
  apply okToks_iff.mpr
  intro t ht
  rcases List.mem_map.mp ht with ⟨t', ht', rfl⟩
  exact okStr_pyLower (okToks_iff.mp h t' ht')

theorem stripWord_subset (sw : String) : ∀ (ts : List String), ∀ t ∈ stripWord sw ts, t ∈ ts := by
  intro ts
  induction ts with
  | nil => intro t ht; exact ht
  | cons x rest ih =>
    cases rest with
    | nil => intro t ht; exact ht
    | cons y rest2 =>
      intro t ht
      rw [stripWord] at ht
      by_cases hb : (pyLower x == sw && startsWithCodeMarker y) = true
      · rw [if_pos hb] at ht
        exact List.mem_cons_of_mem _ (ih t ht)
      · rw [if_neg hb] at ht
        rcases List.mem_cons.mp ht with rfl | h2
        · exact List.mem_cons_self _ _
        · exact List.mem_cons_of_mem _ (ih t h2)

theorem okToks_stripWord {sw : String} {ts : List String} (h : okToks ts = true) :
    okToks (stripWord sw ts) = true :=
  okToks_sub h (stripWord_subset sw ts)

theorem okToks_serviceStrip {ts : List String} (h : okToks ts = true) :
    okToks (serviceStrip ts) = true :=
  okToks_stripWord (okToks_stripWord (okToks_stripWord (okToks_stripWord h)))

theorem splitFirstMarker_mem {ms : List String} : ∀ {ts before after : List String},
    splitFirstMarker ms ts = some (before, after) →
    ∀ t, (t ∈ before ∨ t ∈ after) → t ∈ ts := by
  intro ts
  induction ts with
  | nil => intro before after h; exact absurd h (by rw [splitFirstMarker]; exact fun hx => Option.noConfusion hx)
  | cons z zs ih =>
    intro before after h t hmem
    rw [splitFirstMarker] at h
    by_cases hc : ms.contains (pyLower z) = true
    · rw [if_pos hc] at h
      simp only [Option.some.injEq, Prod.mk.injEq] at h
      obtain ⟨rfl, rfl⟩ := h
      rcases hmem with h1 | h2
      · exact absurd h1 (List.not_mem_nil t)
      · exact List.mem_cons_of_mem _ h2
    · rw [if_neg hc] at h
      cases hs : splitFirstMarker ms zs with
      | none => rw [hs] at h; exact absurd h (fun hx => Option.noConfusion hx)
      | some p =>
        obtain ⟨mid, aft⟩ := p
        rw [hs] at h
        simp only [Option.map_some', Option.some.injEq, Prod.mk.injEq] at h
        obtain ⟨rfl, rfl⟩ := h
        rcases hmem with h1 | h2
        · rcases List.mem_cons.mp h1 with rfl | h1a
          · exact List.mem_cons_self _ _
          · exact List.mem_cons_of_mem _ (ih hs t (Or.inl h1a))
        · exact List.mem_cons_of_mem _ (ih hs t (Or.inr h2))

theorem codeSubF_ok (ms : List String) (sym : String) (hsym : okStr sym = true) :
    ∀ (fuel : Nat) (ts : List String), okToks ts = true →
    ∃ res, codeSubF ms sym fuel ts = some res ∧ okToks res = true := by
  intro fuel
  induction fuel with
  | zero =>
    intro ts h
    cases ts with
    | nil => exact ⟨[], rfl, by decide⟩
    | cons w ws => exact ⟨w :: ws, rfl, h⟩
  | succ fuel ih =>
    intro ts h
    cases ts with
    | nil => exact ⟨[], rfl, by decide⟩
    | cons w ws =>
      have hw : okStr w = true := okToks_iff.mp h w (by simp)
      have hws : okToks ws = true := okToks_sub h (fun t hm => by simp [hm])
      cases ws with
      | nil =>
        rw [codeSubF]
        by_cases hc : ms.contains (pyLower w) = true
        · rw [if_pos hc]
          exact ⟨[w], rfl, okToks_one hw⟩
        · rw [if_neg hc]
          obtain ⟨tail, htail, htok⟩ := ih [] (by decide)
          refine ⟨w :: tail, ?_, okToks_append (okToks_one hw) htok⟩
          simp only [htail, Option.bind_eq_bind, Option.some_bind, Option.pure_def]
      | cons y ys =>
        have hy : okStr y = true := okToks_iff.mp hws y (by simp)
        have hys : okToks ys = true := okToks_sub hws (fun t hm => by simp [hm])
        rw [codeSubF]
        by_cases hc : ms.contains (pyLower w) = true
        · rw [if_pos hc]
          cases hsp : splitFirstMarker ms ys with
          | some p =>
            obtain ⟨mid, after⟩ := p
            have hmid : okToks (y :: mid) = true := okToks_iff.mpr (by
              intro t hm
              rcases List.mem_cons.mp hm with rfl | hma
              · exact hy
              · exact okToks_iff.mp hys t (splitFirstMarker_mem hsp t (Or.inl hma)))
            have hafter : okToks after = true := okToks_iff.mpr (fun t hm =>
              okToks_iff.mp hys t (splitFirstMarker_mem hsp t (Or.inr hm)))
            obtain ⟨v, hv, hvok⟩ := convert_to_number_ok hmid
            obtain ⟨tail, htail, htok⟩ := ih after hafter
            refine ⟨pySplit (sym ++ v ++ sym) ++ tail, ?_, ?_⟩
            · simp only [hv, htail, Option.bind_eq_bind, Option.some_bind, Option.pure_def]
            · exact okToks_append
                (okToks_pySplit (okStr_append (okStr_append hsym hvok) hsym)) htok
          | none =>
            obtain ⟨tail, htail, htok⟩ := ih (y :: ys) hws
            refine ⟨w :: tail, ?_, ?_⟩
            · simp only [htail, Option.bind_eq_bind, Option.some_bind, Option.pure_def]
            · exact okToks_append (okToks_one hw) htok
        · rw [if_neg hc]
          obtain ⟨tail, htail, htok⟩ := ih (y :: ys) hws
          exact ⟨w :: tail, by simp only [htail, Option.bind_eq_bind, Option.some_bind,
            Option.pure_def], okToks_append (okToks_one hw) htok⟩

theorem normalize_codes_ok {ts : List String} (h : okToks ts = true) :
    ∃ res, normalize_codes ts = some res ∧ okToks res = true := by
  have h1 : okToks (serviceStrip ts) = true := okToks_serviceStrip h
  obtain ⟨t2, h2, h2ok⟩ := codeSubF_ok hashMarkers "#" (by decide)
    (serviceStrip ts).length (serviceStrip ts) h1
  obtain ⟨t3, h3, h3ok⟩ := codeSubF_ok starMarkers "*" (by decide) t2.length t2 h2ok
  refine ⟨t3, ?_, h3ok⟩
  rw [normalize_codes]
  simp only [h2, h3, Option.bind_eq_bind, Option.some_bind, Option.pure_def]

theorem okStr_strSlice {s : String} (h : okStr s = true) (a b : Nat) :
    okStr (strSlice s a b) = true := by
  rw [okStr, List.all_eq_true] at h
  rw [strSlice, okStr, List.all_eq_true]
  intro c hc
  exact h c (List.drop_subset _ _ (List.take_subset _ _ hc))

theorem okToks_fmt9 {ds : String} (h : okStr ds = true) : okToks (fmt9 ds) = true := by
  rw [fmt9]
  apply okToks_iff.mpr
  intro t hm
  simp only [List.mem_cons, List.not_mem_nil, or_false] at hm
  rcases hm with rfl | rfl | rfl | rfl <;> exact okStr_strSlice h _ _

theorem okToks_fmt8 {ds : String} (h : okStr ds = true) : okToks (fmt8 ds) = true := by
  rw [fmt8]
  apply okToks_iff.mpr
  intro t hm
  simp only [List.mem_cons, List.not_mem_nil, or_false] at hm
  rcases hm with rfl | rfl | rfl <;> exact okStr_strSlice h _ _

theorem phoneCollect_ok : ∀ (ws acc : List String), okToks ws = true → okToks acc = true →
    okToks (phoneCollect ws acc).1 = true ∧ okToks (phoneCollect ws acc).2 = true := by
  intro ws
  induction ws with
  | nil => intro acc _ ha; exact ⟨ha, rfl⟩
  | cons w ws ih =>
    intro acc h ha
    have hw : okStr w = true := okToks_iff.mp h w (by simp)
    have hws : okToks ws = true := okToks_sub h (fun t hm => by simp [hm])
    rw [phoneCollect]
    by_cases h12 : 12 ≤ acc.length
    · rw [if_pos h12]
      exact ⟨ha, okToks_append (okToks_one hw) hws⟩
    · rw [if_neg h12]
      by_cases hd : pyIsDigit w = true
      · rw [if_pos hd]
        exact ih _ hws (okToks_append ha (okToks_one hw))
      · rw [if_neg hd]
        cases h1 : french_ones.lookup w with
        | some v =>
          exact ih _ hws (okToks_append ha (okToks_one (okStr_natToStr v)))
        | none =>
          cases h2 : french_tens.lookup w with
          | some v =>
            exact ih _ hws (okToks_append ha (okToks_one (okStr_natToStr v)))
          | none =>
            by_cases hc : (w == "cent") = true
            · rw [if_pos hc]
              exact ih _ hws ha
            · rw [if_neg hc]
              by_cases he : (w == "et" || w == "-") = true
              · rw [if_pos he]
                exact ih _ hws ha
              · rw [if_neg he]
                exact ⟨ha, okToks_append (okToks_one hw) hws⟩

theorem okStr_joinParts {parts : List String} (h : okToks parts = true) :
    okStr (String.join (parts.takeWhile phoneDigitOK)) = true := by
  apply okStr_strJoin
  intro t ht
  exact okToks_iff.mp h t (List.takeWhile_subset _ ht)

theorem phoneScanF_ok : ∀ (fuel : Nat) (ts : List String), okToks ts = true →
    okToks (phoneScanF fuel ts) = true := by
  intro fuel
  induction fuel with
  | zero => intro ts h; exact h
  | succ fuel ih =>
    intro ts h
    cases ts with
    | nil => rfl
    | cons w ws =>
      have hw : okStr w = true := okToks_iff.mp h w (by simp)
      have hws : okToks ws = true := okToks_sub h (fun t hm => by simp [hm])
      have hcoll := phoneCollect_ok (w :: ws) [] h (by decide)
      rw [phoneScanF]
      by_cases h6 : 6 ≤ (phoneCollect (w :: ws) []).1.length
      · rw [if_pos h6]
        by_cases h9 :
            ((String.join ((phoneCollect (w :: ws) []).1.takeWhile phoneDigitOK)).length
              == 9) = true
        · rw [if_pos h9]
          exact okToks_append (okToks_fmt9 (okStr_joinParts hcoll.1)) (ih _ hcoll.2)
        · rw [if_neg h9]
          by_cases h8 :
              ((String.join ((phoneCollect (w :: ws) []).1.takeWhile phoneDigitOK)).length
                == 8) = true
          · rw [if_pos h8]
            exact okToks_append (okToks_fmt8 (okStr_joinParts hcoll.1)) (ih _ hcoll.2)
          · rw [if_neg h8]
            exact okToks_append (okToks_one hw) (ih _ hws)
      · rw [if_neg h6]
        exact okToks_append (okToks_one hw) (ih _ hws)

theorem normalize_phone_numbers_ok {ts : List String} (h : okToks ts = true) :
    okToks (normalize_phone_numbers ts) = true :=
  phoneScanF_ok ts.length ts h

theorem findUnitAux_mem : ∀ {ts before : List String} {u : String} {after : List String},
    findUnitAux ts = some (before, u, after) →
    ∀ t, (t ∈ before ∨ t = u ∨ t ∈ after) → t ∈ ts := by
  intro ts
  induction ts with
  | nil =>
    intro before u after h
    exact absurd h (by rw [findUnitAux]; exact fun hx => Option.noConfusion hx)
  | cons z zs ih =>
    intro before u after h t hmem
    rw [findUnitAux] at h
    by_cases hc : dataUnits.contains (pyLower z) = true
    · rw [if_pos hc] at h
      simp only [Option.some.injEq, Prod.mk.injEq] at h
      obtain ⟨rfl, rfl, rfl⟩ := h
      rcases hmem with h1 | rfl | h3
      · exact absurd h1 (List.not_mem_nil t)
      · exact List.mem_cons_self _ _
      · exact List.mem_cons_of_mem _ h3
    · rw [if_neg hc] at h
      cases hs : findUnitAux zs with
      | none => rw [hs] at h; exact absurd h (fun hx => Option.noConfusion hx)
      | some p =>
        obtain ⟨b, u2, a⟩ := p
        rw [hs] at h
        simp only [Option.map_some', Option.some.injEq, Prod.mk.injEq] at h
        obtain ⟨rfl, rfl, rfl⟩ := h
        rcases hmem with h1 | rfl | h3
        · rcases List.mem_cons.mp h1 with rfl | h1a
          · exact List.mem_cons_self _ _
          · exact List.mem_cons_of_mem _ (ih hs t (Or.inl h1a))
        · exact List.mem_cons_of_mem _ (ih hs t (Or.inr (Or.inl rfl)))
        · exact List.mem_cons_of_mem _ (ih hs t (Or.inr (Or.inr h3)))

theorem dataFound_mem {first : Bool} {ts content : List String} {u : String}
    {after : List String} (h : dataFound first ts = some (content, u, after)) :
    ∀ t, (t ∈ content ∨ t = u ∨ t ∈ after) → t ∈ ts := by
  cases first with
  | false =>
    rw [dataFound] at h
    exact findUnitAux_mem h
  | true =>
    cases ts with
    | nil =>
      rw [dataFound] at h
      exact absurd h (fun hx => Option.noConfusion hx)
    | cons t0 rest =>
      rw [dataFound] at h
      cases hf : findUnitAux rest with
      | none =>
        rw [hf] at h
        exact absurd h (fun hx => Option.noConfusion hx)
      | some p =>
        obtain ⟨b, u2, a⟩ := p
        rw [hf] at h
        simp only [Option.map_some', Option.some.injEq, Prod.mk.injEq] at h
        obtain ⟨rfl, rfl, rfl⟩ := h
        intro t hmem
        rcases hmem with h1 | rfl | h3
        · rcases List.mem_cons.mp h1 with rfl | h1a
          · exact List.mem_cons_self _ _
          · exact List.mem_cons_of_mem _ (findUnitAux_mem hf t (Or.inl h1a))
        · exact List.mem_cons_of_mem _ (findUnitAux_mem hf t (Or.inr (Or.inl rfl)))
        · exact List.mem_cons_of_mem _ (findUnitAux_mem hf t (Or.inr (Or.inr h3)))

theorem okStr_canonUnit {u : String} (h : okStr u = true) : okStr (canonUnit u) = true := by
  rw [canonUnit]
  repeat' split
  all_goals first | decide | exact h

theorem dataLoopF_ok : ∀ (fuel : Nat) (first : Bool) (ts : List String), okToks ts = true →
    ∃ res, dataLoopF fuel first ts = some res ∧ okToks res = true := by
  intro fuel
  induction fuel with
  | zero => intro first ts h; exact ⟨ts, rfl, h⟩
  | succ fuel ih =>
    intro first ts h
    rw [dataLoopF]
    cases hf : dataFound first ts with
    | none => exact ⟨ts, rfl, h⟩
    | some p =>
      obtain ⟨content, u, after⟩ := p
      have hcontent : okToks content = true := okToks_iff.mpr (fun t hm =>
        okToks_iff.mp h t (dataFound_mem hf t (Or.inl hm)))
      have hu : okStr u = true :=
        okToks_iff.mp h u (dataFound_mem hf u (Or.inr (Or.inl rfl)))
      have hafter : okToks after = true := okToks_iff.mpr (fun t hm =>
        okToks_iff.mp h t (dataFound_mem hf t (Or.inr (Or.inr hm))))
      obtain ⟨qty, hqty, hqok⟩ := convert_to_number_ok hcontent
      obtain ⟨tail, htail, htok⟩ := ih false after hafter
      refine ⟨pySplit (qty ++ canonUnit (pyLower u)) ++ tail, ?_, ?_⟩
      · simp only [hqty, htail, Option.bind_eq_bind, Option.some_bind, Option.pure_def]
      · exact okToks_append
          (okToks_pySplit (okStr_append hqok (okStr_canonUnit (okStr_pyLower hu)))) htok

theorem slashMois_ok : ∀ (n : Nat) (ts : List String), ts.length ≤ n → okToks ts = true →
    okToks (slashMois ts) = true := by
  intro n
  induction n with
  | zero =>
    intro ts hl h
    cases ts with
    | nil => decide
    | cons a rest => simp at hl
  | succ n ih =>
    intro ts hl h
    cases ts with
    | nil => decide
    | cons a rest =>
      have ha : okStr a = true := okToks_iff.mp h a (by simp)
      cases rest with
      | nil => exact h
      | cons b rest2 =>
        have hb : okStr b = true := okToks_iff.mp h b (by simp)
        cases rest2 with
        | nil =>
          rw [slashMois]
          by_cases h1 : (endsDigitsUnit a && "/mois".data.isPrefixOf b.data) = true
          · rw [if_pos h1]
            exact okToks_one (okStr_append ha hb)
          · rw [if_neg h1]
            by_cases h2 : (endsDigitsUnitSlash a && "mois".data.isPrefixOf b.data) = true
            · rw [if_pos h2]
              exact okToks_one (okStr_append ha hb)
            · rw [if_neg h2]
              exact h
        | cons c rest3 =>
          have hc : okStr c = true := okToks_iff.mp h c (by simp)
          have hrest3 : okToks rest3 = true := okToks_sub h (fun t hm => by simp [hm])
          have hbc : okToks (b :: c :: rest3) = true :=
            okToks_sub h (fun t hm => by simp [hm])
          have hcr : okToks (c :: rest3) = true := okToks_sub h (fun t hm => by simp [hm])
          rw [slashMois]
          by_cases h1 : (endsDigitsUnit a && b == "/" && "mois".data.isPrefixOf c.data) = true
          · rw [if_pos h1]
            exact okToks_append
              (okToks_one (okStr_append (okStr_append ha (by decide)) hc))
              (ih rest3 (by simp only [List.length_cons] at hl ⊢; omega) hrest3)
          · rw [if_neg h1]
            by_cases h2 : (endsDigitsUnit a && "/mois".data.isPrefixOf b.data) = true
            · rw [if_pos h2]
              exact okToks_append (okToks_one (okStr_append ha hb)) (ih _ (by simp only [List.length_cons] at hl ⊢; omega) hcr)
            · rw [if_neg h2]
              by_cases h3 : (endsDigitsUnitSlash a && "mois".data.isPrefixOf b.data) = true
              · rw [if_pos h3]
                exact okToks_append (okToks_one (okStr_append ha hb)) (ih _ (by simp only [List.length_cons] at hl ⊢; omega) hcr)
              · rw [if_neg h3]
                exact okToks_append (okToks_one ha) (ih _ (by simp only [List.length_cons] at hl ⊢; omega) hbc)

theorem parMois_ok : ∀ (n : Nat) (ts : List String), ts.length ≤ n → okToks ts = true →
    okToks (parMois ts) = true := by
  intro n
  induction n with
  | zero =>
    intro ts hl h
    cases ts with
    | nil => decide
    | cons a rest => simp at hl
  | succ n ih =>
    intro ts hl h
    cases ts with
    | nil => decide
    | cons a rest =>
      have ha : okStr a = true := okToks_iff.mp h a (by simp)
      cases rest with
      | nil => exact h
      | cons b rest2 =>
        cases rest2 with
        | nil => exact h
        | cons c rest3 =>
          have hc : okStr c = true := okToks_iff.mp h c (by simp)
          have hrest3 : okToks rest3 = true := okToks_sub h (fun t hm => by simp [hm])
          have hbc : okToks (b :: c :: rest3) = true :=
            okToks_sub h (fun t hm => by simp [hm])
          rw [parMois]
          by_cases h1 : (endsDigitsUnit a && b == "par" && "mois".data.isPrefixOf c.data) = true
          · rw [if_pos h1]
            exact okToks_append
              (okToks_one (okStr_append (okStr_append ha (by decide)) hc))
              (ih rest3 (by simp only [List.length_cons] at hl ⊢; omega) hrest3)
          · rw [if_neg h1]
            exact okToks_append (okToks_one ha) (ih _ (by simp only [List.length_cons] at hl ⊢; omega) hbc)

theorem normalize_data_ok {ts : List String} (h : okToks ts = true) :
    ∃ res, normalize_data ts = some res ∧ okToks res = true := by
  obtain ⟨t1, h1, h1ok⟩ := dataLoopF_ok ts.length true ts h
  refine ⟨parMois (slashMois t1), ?_, ?_⟩
  · rw [normalize_data]
    simp only [h1, Option.bind_eq_bind, Option.some_bind, Option.pure_def]
  · exact parMois_ok _ _ (Nat.le_refl _) (slashMois_ok _ _ (Nat.le_refl _) h1ok)

theorem convertAmount_ok {amount : List String} (h : okToks amount = true) :
    ∃ s, convertAmount amount = some s := by
  rw [convertAmount]
  by_cases hder : amountHasDerem amount = true
  · rw [if_pos hder]
    by_cases hl : (amount.getLast?.getD "" == "dërëm" && decide (1 < amount.length)) = true
    · rw [if_pos hl]
      have hdrop : okToks amount.dropLast = true :=
        okToks_sub h (fun t hm => List.dropLast_subset _ hm)
      obtain ⟨base, hbase, hbok⟩ := convert_to_number_ok hdrop
      simp only [hbase, Option.bind_eq_bind, Option.some_bind, Option.pure_def]
      by_cases hd : pyIsDigit base = true
      · rw [if_pos hd]
        simp only [pyInt_ok hbok hd]
        exact ⟨_, rfl⟩
      · rw [if_neg hd]
        exact ⟨_, rfl⟩
    · rw [if_neg hl]
      obtain ⟨v, hv, _⟩ := convert_to_number_ok h
      exact ⟨v, hv⟩
  · rw [if_neg hder]
    obtain ⟨v, hv, _⟩ := convert_to_number_ok h
    exact ⟨v, hv⟩

theorem currencyScanF_ok : ∀ (fuel : Nat) (ts : List String), okToks ts = true →
    (currencyScanF fuel ts).isSome = true := by
  intro fuel
  induction fuel with
  | zero => intro ts _; rfl
  | succ fuel ih =>
    intro ts h
    cases ts with
    | nil => rfl
    | cons w ws =>
      cases ws with
      | nil => rfl
      | cons x rest =>
        have hw : okStr w = true := okToks_iff.mp h w (by simp)
        have hws : okToks (x :: rest) = true := okToks_sub h (fun t hm => by simp [hm])
        rw [currencyScanF]
        cases hs : searchCurrency (x :: rest) 5 with
        | none =>
          have htail := ih _ hws
          obtain ⟨tail, htl⟩ := Option.isSome_iff_exists.mp htail
          simp only [htl, Option.bind_eq_bind, Option.some_bind, Option.isSome_some, Option.pure_def]
        | some p =>
          obtain ⟨ctype, k⟩ := p
          have hamount : okToks (w :: (x :: rest).take k) = true := by
            apply okToks_iff.mpr
            intro t hm
            rcases List.mem_cons.mp hm with rfl | hma
            · exact hw
            · exact okToks_iff.mp hws t (List.take_subset _ _ hma)
          obtain ⟨nv, hnv⟩ := convertAmount_ok hamount
          have hdrop : okToks ((x :: rest).drop (k + 1)) = true :=
            okToks_sub hws (fun t hm => List.drop_subset _ _ hm)
          obtain ⟨tail, htl⟩ := Option.isSome_iff_exists.mp (ih _ hdrop)
          simp only [hnv, htl, Option.bind_eq_bind, Option.some_bind, Option.isSome_some, Option.pure_def]

theorem normalizeTokens_ok {ts : List String} (h : okToks ts = true) :
    (normalizeTokens ts).isSome = true := by
  obtain ⟨t1, h1, h1ok⟩ := normalize_codes_ok h
  have h2ok : okToks (normalize_phone_numbers t1) = true := normalize_phone_numbers_ok h1ok
  obtain ⟨t3, h3, h3ok⟩ := normalize_data_ok h2ok
  have h4 := currencyScanF_ok t3.length t3 h3ok
  rw [normalizeTokens]
  simp only [h1, h3, Option.bind_eq_bind, Option.some_bind, Option.pure_def]
  exact h4

/-- C9 amended: on every token list free of the superscript digits
`¹ ² ³` (the characters Python's `str.isdigit` accepts but `int()`
rejects), the pipeline returns a result — every guarded partial
operation succeeds — and an input of unrecognized words is copied
through unchanged. -/
theorem c9_amended_no_crash :
    (∀ ts : List String, okToks ts = true → (normalizeTokens ts).isSome = true)
      ∧ pyNormalize ["bonjour", "tout", "le", "monde"] = some "bonjour tout le monde" :=
  ⟨fun _ h => normalizeTokens_ok h, by decide⟩

/-- Witness for C9 at the concrete input `"vingt mille francs"`: the
hypothesis of the totality law holds there and the pipeline returns a
result. -/
theorem c9_amended_no_crash_witness :
    okToks ["vingt", "mille", "francs"] = true
      ∧ (normalizeTokens ["vingt", "mille", "francs"]).isSome = true :=
  ⟨by decide, c9_amended_no_crash.1 ["vingt", "mille", "francs"] (by decide)⟩

end SenegalNormalizer
